import Mathlib

/-!
Verification of the Stateful-Action-Tracker repository.

The Python source is shallowly embedded as follows:
* a Python string is a `PyStr` (a list of characters);
* a decoded JSON value (what `json.loads` produces) is a `Json`;
* a Python dict holding decoded JSON is a `Dict`, an insertion-ordered
  association list, exactly as CPython dicts are insertion ordered;
* `datetime.utcnow().isoformat()` and `uuid.uuid4()` are modelled by
  explicit `now` / fresh-identifier-supply parameters;
* a raised exception is modelled by an `Option` result being `none`;
* Python `==` on decoded JSON data is modelled by structural equality
  (this agrees with CPython except for its order-insensitive dict
  comparison and its `True == 1` unification, neither of which is
  exercised by the tracked data, whose fields are strings and lists).
-/

/-- Model of a Python `str`: a sequence of characters. -/
abbrev PyStr := List Char

/-- Shorthand turning a Lean string literal into a `PyStr`. -/
def pys (s : String) : PyStr := s.data

/-- A decoded JSON value, the data manipulated by the whole program. -/
inductive Json where
  | null : Json
  | bool : Bool → Json
  | num : Int → Json
  | str : PyStr → Json
  | arr : List Json → Json
  | obj : List (PyStr × Json) → Json

mutual

/-- Boolean structural equality on `Json` (the model of Python `==` on
decoded JSON data). -/
def jeqb : Json → Json → Bool
  | .null, .null => true
  | .bool a, .bool b => a == b
  | .num a, .num b => a == b
  | .str a, .str b => a == b
  | .arr xs, .arr ys => jeqbL xs ys
  | .obj xs, .obj ys => jeqbO xs ys
  | _, _ => false

/-- Elementwise `jeqb` on JSON sequences. -/
def jeqbL : List Json → List Json → Bool
  | [], [] => true
  | x :: xs, y :: ys => jeqb x y && jeqbL xs ys
  | _, _ => false

/-- Elementwise `jeqb` on JSON key/value bindings. -/
def jeqbO : List (PyStr × Json) → List (PyStr × Json) → Bool
  | [], [] => true
  | x :: xs, y :: ys => x.1 == y.1 && jeqb x.2 y.2 && jeqbO xs ys
  | _, _ => false

end

mutual

/-- `jeqb` is reflexive. -/
def jeqb_refl : (a : Json) → jeqb a a = true
  | .null => rfl
  | .bool b => by simp [jeqb]
  | .num n => by simp [jeqb]
  | .str s => by simp [jeqb]
  | .arr xs => by simp only [jeqb]; exact jeqbL_refl xs
  | .obj xs => by simp only [jeqb]; exact jeqbO_refl xs

/-- `jeqbL` is reflexive. -/
def jeqbL_refl : (xs : List Json) → jeqbL xs xs = true
  | [] => rfl
  | x :: xs => by simp only [jeqbL, Bool.and_eq_true]; exact ⟨jeqb_refl x, jeqbL_refl xs⟩

/-- `jeqbO` is reflexive. -/
def jeqbO_refl : (xs : List (PyStr × Json)) → jeqbO xs xs = true
  | [] => rfl
  | x :: xs => by
      simp only [jeqbO, Bool.and_eq_true, beq_self_eq_true, true_and]
      exact ⟨jeqb_refl x.2, jeqbO_refl xs⟩

end

mutual

/-- `jeqb` implies equality. -/
def jeqb_eq : (a b : Json) → jeqb a b = true → a = b
  | .null, .null, _ => rfl
  | .bool a, .bool b, h => by simp [jeqb] at h; simp [h]
  | .num a, .num b, h => by simp [jeqb] at h; simp [h]
  | .str a, .str b, h => by simp [jeqb] at h; simp [h]
  | .arr xs, .arr ys, h => by simp only [jeqb] at h; rw [jeqbL_eq xs ys h]
  | .obj xs, .obj ys, h => by simp only [jeqb] at h; rw [jeqbO_eq xs ys h]
  | .null, .bool _, h => by simp [jeqb] at h
  | .null, .num _, h => by simp [jeqb] at h
  | .null, .str _, h => by simp [jeqb] at h
  | .null, .arr _, h => by simp [jeqb] at h
  | .null, .obj _, h => by simp [jeqb] at h
  | .bool _, .null, h => by simp [jeqb] at h
  | .bool _, .num _, h => by simp [jeqb] at h
  | .bool _, .str _, h => by simp [jeqb] at h
  | .bool _, .arr _, h => by simp [jeqb] at h
  | .bool _, .obj _, h => by simp [jeqb] at h
  | .num _, .null, h => by simp [jeqb] at h
  | .num _, .bool _, h => by simp [jeqb] at h
  | .num _, .str _, h => by simp [jeqb] at h
  | .num _, .arr _, h => by simp [jeqb] at h
  | .num _, .obj _, h => by simp [jeqb] at h
  | .str _, .null, h => by simp [jeqb] at h
  | .str _, .bool _, h => by simp [jeqb] at h
  | .str _, .num _, h => by simp [jeqb] at h
  | .str _, .arr _, h => by simp [jeqb] at h
  | .str _, .obj _, h => by simp [jeqb] at h
  | .arr _, .null, h => by simp [jeqb] at h
  | .arr _, .bool _, h => by simp [jeqb] at h
  | .arr _, .num _, h => by simp [jeqb] at h
  | .arr _, .str _, h => by simp [jeqb] at h
  | .arr _, .obj _, h => by simp [jeqb] at h
  | .obj _, .null, h => by simp [jeqb] at h
  | .obj _, .bool _, h => by simp [jeqb] at h
  | .obj _, .num _, h => by simp [jeqb] at h
  | .obj _, .str _, h => by simp [jeqb] at h
  | .obj _, .arr _, h => by simp [jeqb] at h

/-- `jeqbL` implies equality. -/
def jeqbL_eq : (xs ys : List Json) → jeqbL xs ys = true → xs = ys
  | [], [], _ => rfl
  | x :: xs, y :: ys, h => by
      simp only [jeqbL, Bool.and_eq_true] at h
      rw [jeqb_eq x y h.1, jeqbL_eq xs ys h.2]
  | [], _ :: _, h => by simp [jeqbL] at h
  | _ :: _, [], h => by simp [jeqbL] at h

/-- `jeqbO` implies equality. -/
def jeqbO_eq : (xs ys : List (PyStr × Json)) → jeqbO xs ys = true → xs = ys
  | [], [], _ => rfl
  | x :: xs, y :: ys, h => by
      simp only [jeqbO, Bool.and_eq_true] at h
      obtain ⟨⟨h1, h2⟩, h3⟩ := h
      have hx : x = y := Prod.ext (by simpa using h1) (jeqb_eq x.2 y.2 h2)
      rw [hx, jeqbO_eq xs ys h3]
  | [], _ :: _, h => by simp [jeqbO] at h
  | _ :: _, [], h => by simp [jeqbO] at h

end

instance : DecidableEq Json := fun a b =>
  if h : jeqb a b = true then isTrue (jeqb_eq a b h)
  else isFalse (fun he => h (he ▸ jeqb_refl a))

/-- A Python dict mapping string keys to decoded JSON values, as an
insertion-ordered association list (CPython dicts are insertion ordered
and have pairwise-distinct keys). -/
abbrev Dict := List (PyStr × Json)

/-- `d[k]` / `d.get(k)`: value of the first (hence, in a real dict, only)
binding of `k`; `none` models `KeyError` / `None`. -/
def aget {α β : Type} [DecidableEq α] : List (α × β) → α → Option β
  | [], _ => none
  | kv :: rest, k => if kv.1 = k then some kv.2 else aget rest k

/-- `d[k] = v`: replace the value of an existing binding in place
(CPython keeps the key's position), else append a new binding. -/
def aset {α β : Type} [DecidableEq α] : List (α × β) → α → β → List (α × β)
  | [], k, v => [(k, v)]
  | kv :: rest, k, v => if kv.1 = k then (k, v) :: rest else kv :: aset rest k v

/-- `k in d`. -/
def amem {α β : Type} [DecidableEq α] (d : List (α × β)) (k : α) : Bool :=
  (aget d k).isSome

/-- Python truthiness of a decoded JSON value (`None`, `""`, `0`, `[]`,
`{}` and `False` are falsy). -/
def truthy : Json → Bool
  | .null => false
  | .bool b => b
  | .num n => decide (n ≠ 0)
  | .str s => !s.isEmpty
  | .arr xs => !xs.isEmpty
  | .obj kvs => !kvs.isEmpty

/-- Whether Python `x[:50]` succeeds on the value: slicing is defined for
`str` and `list` data, and raises `TypeError` otherwise. -/
def sliceable : Json → Bool
  | .str _ => true
  | .arr _ => true
  | _ => false

mutual

/-- Size of a JSON value, bounding its nesting depth (fuel for the
renderer below). -/
def jsize : Json → Nat
  | .arr xs => jsizeL xs + 1
  | .obj kvs => jsizeO kvs + 1
  | _ => 1

/-- Size of a JSON sequence. -/
def jsizeL : List Json → Nat
  | [] => 0
  | x :: xs => jsize x + jsizeL xs + 1

/-- Size of a JSON binding list. -/
def jsizeO : List (PyStr × Json) → Nat
  | [] => 0
  | kv :: kvs => jsize kv.2 + jsizeO kvs + 1

end

/-- Python `repr` of a decoded JSON value, fuel-indexed so it is
structural (the fuel is instantiated with `jsize`, which bounds the
nesting depth).  Strings are rendered with single quotes; CPython's
switch to double quotes for strings containing a quote is not modelled
(no tracked field contains quotes). -/
def pyReprF : Nat → Json → PyStr
  | 0, _ => []
  | fuel+1, j =>
    match j with
    | .null => pys "None"
    | .bool true => pys "True"
    | .bool false => pys "False"
    | .num n => (toString n).data
    | .str s => pys "\x27" ++ s ++ pys "\x27"
    | .arr xs => pys "[" ++ List.intercalate (pys ", ") (xs.map (pyReprF fuel)) ++ pys "]"
    | .obj kvs =>
        pys "\x7b" ++
        List.intercalate (pys ", ")
          (kvs.map (fun kv => pys "\x27" ++ kv.1 ++ pys "\x27: " ++ pyReprF fuel kv.2)) ++
        pys "\x7d"

/-- Python `str()` of a decoded JSON value, as interpolated into the
change-log f-strings of `update_action_item`. -/
def pyStrOf : Json → PyStr
  | .str s => s
  | j => pyReprF (jsize j) j

/-- The four valid status enumerations, as JSON values
(`["Open", "In Progress", "Completed", "Cancelled"]`). -/
def validStatusJson : List Json :=
  [.str (pys "Open"), .str (pys "In Progress"), .str (pys "Completed"), .str (pys "Cancelled")]

/-- `f"Changed \t'{key}\t' from \t'{item[key]}\t' to \t'{value}\t'"`
(the source's f-strings contain literal tab characters). -/
def changedMsg (key : PyStr) (oldv newv : Json) : PyStr :=
  pys "Changed \t\x27" ++ key ++ pys "\t\x27 from \t\x27" ++ pyStrOf oldv ++
  pys "\t\x27 to \t\x27" ++ pyStrOf newv ++ pys "\t\x27"

/-- `f"Added \t'{key}\t' with value \t'{value}\t'"`. -/
def addedMsg (key : PyStr) (newv : Json) : PyStr :=
  pys "Added \t\x27" ++ key ++ pys "\t\x27 with value \t\x27" ++ pyStrOf newv ++ pys "\t\x27"

/-- The marker `"Changed \t'status\t'"` tested with `str.startswith` by
the status-revert scan. -/
def statusChangedMark : PyStr := pys "Changed \t\x27status\t\x27"

/-- The separator `" from \t'"` of the revert scan's first `str.split`. -/
def fromDelim : PyStr := pys " from \t\x27"

/-- The separator `"\t' to"` of the revert scan's second `str.split`. -/
def toDelim : PyStr := pys "\t\x27 to"

/-- Split a string at its first occurrence of `sep`, returning the parts
before and after, or `none` when `sep` does not occur. -/
def chopAtSep (sep : PyStr) : PyStr → Option (PyStr × PyStr)
  | [] => none
  | c :: rest =>
    if sep.isPrefixOf (c :: rest) then some ([], (c :: rest).drop sep.length)
    else
      match chopAtSep sep rest with
      | some p => some (c :: p.1, p.2)
      | none => none

/-- Fuel-indexed iteration of `chopAtSep`, realising Python `str.split`
for a non-empty separator once given enough fuel. -/
def pySplitF (sep : PyStr) : Nat → PyStr → List PyStr
  | 0, s => [s]
  | fuel+1, s =>
    match chopAtSep sep s with
    | none => [s]
    | some p => p.1 :: pySplitF sep fuel p.2

/-- Python `s.split(sep)` for a non-empty separator. -/
def pySplit (sep s : PyStr) : List PyStr := pySplitF sep (s.length + 1) s

/-- The body of the status-revert loop of `update_action_item` for one
change string: if it starts with `"Changed \t'status\t'"`, split on
`" from \t'"`, and when that yields more than one part take part 1 and
the part of it before `"\t' to"`. -/
def parseOrigStatus (change : PyStr) : Option PyStr :=
  if statusChangedMark.isPrefixOf change then
    match pySplit fromDelim change with
    | _ :: p1 :: _ => some ((pySplit toDelim p1).headD [])
    | _ => none
  else none

/-- The revert value: scan the change log in reverse for the last entry
the loop accepts, defaulting to `item.get("status")` (the current,
already-updated value). -/
def findOrigStatus (log : List PyStr) (dflt : Json) : Json :=
  match log.reverse.findSome? parseOrigStatus with
  | some s => .str s
  | none => dflt

/-- One iteration of `update_action_item`'s `for key, value in
updates.items()` loop, threading the item and the change log. -/
def applyOne (st : Dict × List PyStr) (kv : PyStr × Json) : Dict × List PyStr :=
  match aget st.1 kv.1 with
  | some v0 =>
    if v0 ≠ kv.2 then (aset st.1 kv.1 kv.2, st.2 ++ [changedMsg kv.1 v0 kv.2])
    else st
  | none => (aset st.1 kv.1 kv.2, st.2 ++ [addedMsg kv.1 kv.2])

/-- The whole update loop of `update_action_item`. -/
def applyAll (item updates : Dict) : Dict × List PyStr :=
  updates.foldl applyOne (item, [])

/-- The history record `{"timestamp": now, "changes": "; ".join(change_log)}`. -/
def mkHistoryEntry (now : PyStr) (log : List PyStr) : Json :=
  .obj [(pys "timestamp", .str now), (pys "changes", .str (List.intercalate (pys "; ") log))]

/-- The change string one update pair contributes against a given item
state: a `changedMsg` for a present, differing value; an `addedMsg` for
an absent key; nothing for an equal value. -/
def changeEntry (item : Dict) (kv : PyStr × Json) : Option PyStr :=
  match aget item kv.1 with
  | some v0 => if v0 = kv.2 then none else some (changedMsg kv.1 v0 kv.2)
  | none => some (addedMsg kv.1 kv.2)

/-- The item's `update_history` as a list: its elements when it is
present and a list, `[]` otherwise (mirroring the source's
`isinstance(..., list)` reset). -/
def historyList (d : Dict) : List Json :=
  match aget d (pys "update_history") with
  | some (.arr xs) => xs
  | _ => []

/-- `update_action_item(item, updates)` from `src/data_structures.py`:
apply each differing or new field and record a change string; when at
least one change was recorded, set `updated_at` and append one history
entry; finally, when `updates` carries a `status` outside the four valid
values, re-derive the pre-call status by parsing the just-generated
change strings and assign it. -/
def update_action_item (now : PyStr) (item updates : Dict) : Dict :=
  let r := applyAll item updates
  let item2 :=
    if r.2 = [] then r.1
    else
      let item1a := aset r.1 (pys "updated_at") (.str now)
      aset item1a (pys "update_history") (.arr (historyList item1a ++ [mkHistoryEntry now r.2]))
  if amem updates (pys "status") ∧ (aget updates (pys "status")).getD .null ∉ validStatusJson then
    aset item2 (pys "status") (findOrigStatus r.2 ((aget item2 (pys "status")).getD .null))
  else item2

/-- `create_action_item` from `src/data_structures.py`; the generated
`uuid4` and the `utcnow` timestamp are passed explicitly. -/
def create_action_item (newId now project_id : PyStr)
    (task owner deadline status source_meeting : Json) : Dict :=
  [(pys "id", .str newId),
   (pys "project_id", .str project_id),
   (pys "task", task),
   (pys "owner", owner),
   (pys "deadline", deadline),
   (pys "status", status),
   (pys "created_at", .str now),
   (pys "updated_at", .str now),
   (pys "source_meeting", source_meeting),
   (pys "update_history", .arr [])]

/-- The keys excluded from the field-update mapping built by
`process_parsed_items` for an update to an existing item. -/
def excludedKeys : List PyStr :=
  [pys "id", pys "project_id", pys "created_at", pys "update_history"]

/-- Whether a decoded JSON value is hashable in CPython: the decodings
of arrays and objects are `list`s and `dict`s, which are unhashable
(using one as a dict key, or on the left of `in` against a dict, raises
`TypeError`); `None`, booleans, numbers and strings are hashable. -/
def jhashable : Json → Bool
  | .arr _ => false
  | .obj _ => false
  | _ => true

/-- `{item["id"]: item for item in existing_items}` — builds the id
lookup, indexing items by position; `none` models the `KeyError` raised
when an existing item has no `"id"` key, and the `TypeError` raised
when an item's id is unhashable.  A repeated id overwrites the earlier
binding, as in a dict comprehension. -/
def buildIdMapGo : List Dict → Nat → List (Json × Nat) → Option (List (Json × Nat))
  | [], _, acc => some acc
  | it :: rest, i, acc =>
    match aget it (pys "id") with
    | none => none
    | some v =>
      if jhashable v then buildIdMapGo rest (i + 1) (aset acc v i) else none

/-- The id-to-item lookup of `process_parsed_items`, built once per call. -/
def buildIdMap (existing : List Dict) : Option (List (Json × Nat)) :=
  buildIdMapGo existing 0 []

/-- `item_id and item_id in existing_items_map`: `none` models the
`TypeError` CPython raises when the candidate's id is truthy but
unhashable (the `and` short-circuits before hashing a falsy id);
`some none` is a completed test with no match (id absent, falsy, or
hashable and not a key of the map); `some (some idx)` is the index of
the matched existing item. -/
def matchedIdx (m : List (Json × Nat)) (c : Dict) : Option (Option Nat) :=
  match aget c (pys "id") with
  | some v =>
    if truthy v then
      if jhashable v then some (aget m v) else none
    else some none
  | none => some none

/-- The candidate loop of `process_parsed_items`.  `exist` is the
existing list (mutated in place through the id map), `newAcc` is
`newly_created_items`, and `k` counts the `uuid4` draws.  A `none`
result models an uncaught exception: a `TypeError` from the membership
test on a truthy unhashable id, or `llm_item.get('task')[:50]` on a
non-sliceable task value. -/
def mergeGo (now project_id : PyStr) (freshIds : Nat → PyStr) (m : List (Json × Nat)) :
    List Dict → List Dict → List Dict → Nat → Option (List Dict)
  | [], exist, newAcc, _ => some (exist ++ newAcc)
  | c :: rest, exist, newAcc, k =>
    match matchedIdx m c with
    | none => none
    | some (some idx) =>
      match exist[idx]? with
      | some ex =>
        let ups := c.filter (fun kv => decide (kv.1 ∉ excludedKeys))
        mergeGo now project_id freshIds m rest
          (exist.set idx (update_action_item now ex ups)) newAcc k
      | none => none
    | some none =>
      if amem c (pys "task") then
        if sliceable ((aget c (pys "task")).getD .null) then
          let ni := create_action_item (freshIds k) now project_id
            ((aget c (pys "task")).getD .null)
            ((aget c (pys "owner")).getD .null)
            ((aget c (pys "deadline")).getD .null)
            ((aget c (pys "status")).getD (.str (pys "Open")))
            (.str (pys "LLM Extraction"))
          let ni2 :=
            if amem c (pys "status") ∧ (aget c (pys "status")).getD .null ∉ validStatusJson
            then aset ni (pys "status") (.str (pys "Open")) else ni
          mergeGo now project_id freshIds m rest exist (newAcc ++ [ni2]) (k + 1)
        else none
      else mergeGo now project_id freshIds m rest exist newAcc k

/-- `process_parsed_items(project_id, parsed_items, existing_items)` from
`src/action_item_parser.py`.  Candidates are records (dicts), as
delivered by the parser contract; `freshIds` supplies the `uuid4`
draws and `now` the timestamps. -/
def process_parsed_items (freshIds : Nat → PyStr) (now project_id : PyStr)
    (parsed_items existing_items : List Dict) : Option (List Dict) :=
  match buildIdMap existing_items with
  | none => none
  | some m => mergeGo now project_id freshIds m parsed_items existing_items [] 0

/-- JSON whitespace skipping (`json.loads` tolerates space, tab, newline,
carriage return). -/
def skipWs (s : PyStr) : PyStr :=
  s.dropWhile (fun c => c = ' ' || c = '\t' || c = '\n' || c = '\r')

/-- Body of a JSON string after the opening quote; escape sequences are
not supported by this model decoder (none of the verified inputs use
them). -/
def parseStrBody : PyStr → Option (PyStr × PyStr)
  | [] => none
  | c :: rest =>
    if c = '\x22' then some ([], rest)
    else if c = '\\' then none
    else (parseStrBody rest).map (fun p => (c :: p.1, p.2))

/-- Decimal digits to a natural number. -/
def digitsToNat (acc : Nat) : PyStr → Nat
  | [] => acc
  | c :: r => digitsToNat (acc * 10 + (c.toNat - 48)) r

/-- An optionally negated integer literal. -/
def parseIntLit (s : PyStr) : Option (Int × PyStr) :=
  match s with
  | '-' :: r =>
    let ds := r.takeWhile Char.isDigit
    if ds.isEmpty then none
    else some (-(digitsToNat 0 ds : Nat), r.drop ds.length)
  | _ =>
    let ds := s.takeWhile Char.isDigit
    if ds.isEmpty then none
    else some ((digitsToNat 0 ds : Nat), s.drop ds.length)

/-- Collapse repeated JSON object keys the way a dict build does
(first position, last value). -/
def canonObj (kvs : List (PyStr × Json)) : Dict :=
  kvs.foldl (fun d kv => aset d kv.1 kv.2) []

/-- Modes of the fueled decoder: a value, the elements following the
first in an array, or the bindings of an object. -/
inductive PMode where
  | val : PMode
  | arrm : PMode
  | objm : PMode

/-- Fueled recursive-descent decoder for the escape-free, integer-only
JSON fragment (a model of Python's `json.loads` adequate for the inputs
verified here; number parses followed by `.`/`e`/`E` fail rather than
misread a float). -/
def parseF : Nat → PMode → PyStr → Option (Json × PyStr)
  | 0, _, _ => none
  | fuel+1, .val, s =>
    match s with
    | [] => none
    | c :: rest =>
      if c = '\x7b' then
        match skipWs rest with
        | '\x7d' :: r => some (.obj [], r)
        | s2 =>
          match parseF fuel .objm s2 with
          | some (.obj kvs, r) => some (.obj (canonObj kvs), r)
          | _ => none
      else if c = '[' then
        match skipWs rest with
        | ']' :: r => some (.arr [], r)
        | s2 =>
          match parseF fuel .arrm s2 with
          | some (.arr vs, r) => some (.arr vs, r)
          | _ => none
      else if c = '\x22' then
        match parseStrBody rest with
        | some p => some (.str p.1, p.2)
        | none => none
      else if c = 't' then
        match rest with
        | 'r' :: 'u' :: 'e' :: r => some (.bool true, r)
        | _ => none
      else if c = 'f' then
        match rest with
        | 'a' :: 'l' :: 's' :: 'e' :: r => some (.bool false, r)
        | _ => none
      else if c = 'n' then
        match rest with
        | 'u' :: 'l' :: 'l' :: r => some (.null, r)
        | _ => none
      else
        match parseIntLit (c :: rest) with
        | some (n, r) =>
          match r with
          | '.' :: _ => none
          | 'e' :: _ => none
          | 'E' :: _ => none
          | _ => some (.num n, r)
        | none => none
  | fuel+1, .arrm, s =>
    match parseF fuel .val s with
    | some (v, r) =>
      match skipWs r with
      | ',' :: r2 =>
        match parseF fuel .arrm (skipWs r2) with
        | some (.arr vs, r3) => some (.arr (v :: vs), r3)
        | _ => none
      | ']' :: r2 => some (.arr [v], r2)
      | _ => none
    | none => none
  | fuel+1, .objm, s =>
    match s with
    | '\x22' :: rest =>
      match parseStrBody rest with
      | some kp =>
        match skipWs kp.2 with
        | ':' :: r2 =>
          match parseF fuel .val (skipWs r2) with
          | some (v, r3) =>
            match skipWs r3 with
            | ',' :: r4 =>
              match parseF fuel .objm (skipWs r4) with
              | some (.obj kvs, r5) => some (.obj ((kp.1, v) :: kvs), r5)
              | _ => none
            | '\x7d' :: r4 => some (.obj [(kp.1, v)], r4)
            | _ => none
          | none => none
        | _ => none
      | none => none
    | _ => none

/-- `json.loads`, modelled on the fragment above: decode one value and
require only whitespace after it. -/
def jsonLoads (s : PyStr) : Option Json :=
  match parseF (2 * s.length + 4) .val (skipWs s) with
  | some (j, r) => if skipWs r = [] then some j else none
  | none => none

/-- `str.find` for a single character: first index, `none` for `-1`. -/
def findIdxCh (c : Char) : PyStr → Option Nat
  | [] => none
  | x :: r => if x = c then some 0 else (findIdxCh c r).map (· + 1)

/-- `str.rfind` for a single character: last index, `none` for `-1`. -/
def rfindIdxCh (c : Char) (s : PyStr) : Option Nat :=
  (findIdxCh c s.reverse).map (fun i => s.length - 1 - i)

/-- The slice `s[i : j + 1]`. -/
def sliceIncl (s : PyStr) (i j : Nat) : PyStr := (s.drop i).take (j + 1 - i)

/-- The single-object fallback of `parse_llm_json_response`: locate the
first `{` and last `}`; when both exist in order, decode the slice and
wrap a decoded dict in a one-element list. -/
def objFallback (loads : PyStr → Option Json) (rc : PyStr) : Option (List Json) :=
  match findIdxCh '\x7b' rc, rfindIdxCh '\x7d' rc with
  | some js, some je =>
    if js < je then
      match loads (sliceIncl rc js je) with
      | some (.obj kvs) => some [.obj kvs]
      | some _ => none
      | none => none
    else none
  | some _, none => none
  | none, some _ => none
  | none, none => none

/-- `parse_llm_json_response` from `src/action_item_parser.py`,
parameterised by the `json.loads` decoder: locate the first `[` and last
`]`; when the search fails fall back to the single-object path, and when
the slice exists decode it, returning the list on success and `None` on
a decode failure or a non-list decode. -/
def parse_llm_json_response (loads : PyStr → Option Json) (rc : PyStr) : Option (List Json) :=
  if rc = [] then none
  else
    match findIdxCh '[' rc, rfindIdxCh ']' rc with
    | some js, some je =>
      if je < js then objFallback loads rc
      else
        match loads (sliceIncl rc js je) with
        | some (.arr xs) => some xs
        | some _ => none
        | none => none
    | some _, none => objFallback loads rc
    | none, some _ => objFallback loads rc
    | none, none => objFallback loads rc

/-- The outcome of opening, reading and decoding a present document:
`ok j` — the content decodes to the value `j`; `jsonError` — the
attempt fails with one of the two exception classes the caller
handles (`json.JSONDecodeError` on malformed JSON text, or an
`IOError` while reading); `fatal` — the attempt fails outside those
classes (a `UnicodeDecodeError` on bytes that are not valid UTF-8, a
`RecursionError` on deeply nested content), which the caller does not
catch. -/
inductive DecodeOutcome
  | ok (j : Json)
  | jsonError
  | fatal
deriving DecidableEq

/-- The persisted file system: a path maps to `none` (file absent) or
`some o` (file present, with `o` the outcome of reading and decoding
it).  The Python `json` module's dump/load pair is modelled as
faithful on the values the program writes, so a document written by
`save_action_items` is represented by its decoded value. -/
abbrev Store := PyStr → Option DecodeOutcome

/-- `get_project_file_path` from `src/memory_manager.py`: keep
alphanumeric, `_` and `-` characters of the project id, fall back to
`"default_project"` when nothing survives, and join `ACTION_ITEM_DIR`
with `<safe>.json`.  (`Char.isAlphanum` is an ASCII approximation of
the Unicode-aware `str.isalnum`; save and load share this function, so
the approximation does not affect their relative behaviour.) -/
def get_project_file_path (dir project_id : PyStr) : PyStr :=
  let safe := project_id.filter (fun c => c.isAlphanum || c = '_' || c = '-')
  (dir ++ pys "/") ++ ((if safe.isEmpty then pys "default_project" else safe) ++ pys ".json")

/-- `load_action_items` from `src/memory_manager.py`: an absent file
yields `[]`; a present file whose read or decode fails with one of the
two caught exception classes (`json.JSONDecodeError`, `IOError`), or
which decodes to a non-list, yields `[]` after a diagnostic; a decoded
list is returned.  A failure outside the two caught classes
propagates out of the call, modelled as `none`. -/
def load_action_items (fs : Store) (dir project_id : PyStr) : Option (List Json) :=
  match fs (get_project_file_path dir project_id) with
  | none => some []
  | some (.ok (.arr xs)) => some xs
  | some (.ok _) => some []
  | some .jsonError => some []
  | some .fatal => none

/-- `save_action_items` from `src/memory_manager.py` on its success path:
overwrite the project's document with the serialized list and return
`True` (I/O failures, which return `False` without the write, are
environmental and outside this model). -/
def save_action_items (fs : Store) (dir project_id : PyStr) (items : List Json) : Store × Bool :=
  (fun p => if p = get_project_file_path dir project_id
     then some (.ok (.arr items)) else fs p,
   true)

/-- The action-item content fields an LLM update may carry (every key of
an update mapping in the claims about `update_action_item`). -/
def fieldKeys : List PyStr :=
  [pys "task", pys "owner", pys "deadline", pys "status", pys "source_meeting"]

/-- Whether a candidate takes the new-item branch of the merge loop:
the id test completes with no match, and a `task` key is present. -/
def isNewBranch (m : List (Json × Nat)) (c : Dict) : Bool :=
  decide (matchedIdx m c = some none) && amem c (pys "task")

/-- `sep` matches at no position `p < a.length` of `a ++ sep` — since a
match needs `sep.length` characters of lookahead, such a match is
decided inside `a ++ sep`, independently of anything appended after. -/
def noEarlyHit (sep a : PyStr) : Bool :=
  (List.range a.length).all (fun p => !(sep.isPrefixOf ((a ++ sep).drop p)))

/-- Every position `p < b.length` of `b` refutes a `sep` match by a
mismatch witnessed inside `b` itself (so no match can start inside `b`,
whatever follows it). -/
def mismatchInside (sep b : PyStr) : Bool :=
  (List.range b.length).all (fun p =>
    (List.range sep.length).any (fun j =>
      decide (p + j < b.length) && decide (b[p + j]? ≠ sep[j]?)))

/-! ## Association-list lemmas -/

theorem aget_aset_self {α β : Type} [DecidableEq α] (d : List (α × β)) (k : α) (v : β) :
    aget (aset d k v) k = some v := by
  induction d with
  | nil => simp [aget, aset]
  | cons kv rest ih =>
    by_cases h : kv.1 = k
    · simp [aset, h, aget]
    · simp [aset, h, aget, ih]

theorem aget_aset_ne {α β : Type} [DecidableEq α] (d : List (α × β)) (k k' : α) (v : β)
    (h : k' ≠ k) : aget (aset d k v) k' = aget d k' := by
  have hkk : ¬ k = k' := fun he => h he.symm
  induction d with
  | nil => simp [aget, aset, hkk]
  | cons kv rest ih =>
    by_cases hk : kv.1 = k
    · subst hk
      simp [aset, aget, hkk]
    · by_cases hk' : kv.1 = k'
      · simp [aset, hk, aget, hk', h]
      · simp [aset, hk, aget, hk', ih]

theorem aset_self {α β : Type} [DecidableEq α] (d : List (α × β)) (k : α) (v : β)
    (h : aget d k = some v) : aset d k v = d := by
  induction d with
  | nil => simp [aget] at h
  | cons kv rest ih =>
    by_cases hk : kv.1 = k
    · simp only [aget, hk, if_pos, Option.some.injEq] at h
      simp only [aset, hk, if_pos]
      rw [← hk, ← h]
    · simp only [aget, hk, if_neg, if_false] at h
      simp [aset, hk, ih h]

theorem aget_mem {α β : Type} [DecidableEq α] (d : List (α × β)) (k : α) (v : β)
    (h : aget d k = some v) : (k, v) ∈ d := by
  induction d with
  | nil => simp [aget] at h
  | cons kv rest ih =>
    by_cases hk : kv.1 = k
    · simp only [aget, hk, if_pos, Option.some.injEq] at h
      have heq : (k, v) = kv := by rw [← hk, ← h]
      rw [heq]
      exact List.mem_cons_self kv rest
    · simp only [aget, hk, if_neg, if_false] at h
      exact List.mem_cons_of_mem _ (ih h)

theorem aget_eq_none_of_not_mem_keys {α β : Type} [DecidableEq α] (d : List (α × β)) (k : α)
    (h : k ∉ d.map Prod.fst) : aget d k = none := by
  induction d with
  | nil => rfl
  | cons kv rest ih =>
    simp only [List.map_cons, List.mem_cons] at h
    push_neg at h
    have h1 : ¬ kv.1 = k := fun he => h.1 he.symm
    simp [aget, h1, ih h.2]

theorem amem_eq_true_iff {α β : Type} [DecidableEq α] (d : List (α × β)) (k : α) :
    amem d k = true ↔ ∃ v, aget d k = some v := by
  unfold amem
  cases h : aget d k <;> simp [h]

/-! ## Claim C7: save/load round-trip -/

/-- Claim C7: for every file system, storage directory, project identifier
and item sequence, `save_action_items` followed by `load_action_items` on
the same project returns exactly the saved sequence (the store
round-trips through its persisted document without loss or alteration). -/
theorem claim_C7_save_load_roundtrip (fs : Store) (dir project_id : PyStr)
    (items : List Json) :
    load_action_items (save_action_items fs dir project_id items).1 dir project_id =
      some items := by
  simp [load_action_items, save_action_items]

/-! ## Claim C8: load's silent-recovery policy -/

/-- Counterexample to claim C8 as stated: `load_action_items` does not
recover for every present-but-undecodable document, and does not "never
raise for any document content".  The handlers catch only
`json.JSONDecodeError` and `IOError`; a document whose bytes are not
valid UTF-8 makes the read raise an uncaught `UnicodeDecodeError`, and
deeply nested content makes the decoder raise an uncaught
`RecursionError`.  For such a document the call propagates the
exception (`none`) instead of returning the empty sequence. -/
theorem claim_C8_counterexample :
    load_action_items
      (fun p => if p = get_project_file_path (pys "data") (pys "P1")
        then some DecodeOutcome.fatal else none)
      (pys "data") (pys "P1") = none := by
  decide

/-- Claim C8 (amended): `load_action_items` recovers with the empty
sequence when the project's document is absent, when reading or
decoding it fails with one of the two caught exception classes
(`json.JSONDecodeError`, `IOError`), and when it decodes to something
other than a sequence; but — contrary to the claim, see the
counterexample — a failure outside those two classes (invalid UTF-8
bytes, deeply nested content) propagates out of the call. -/
theorem claim_C8_amended_load_recovery (fs : Store) (dir project_id : PyStr) :
    (fs (get_project_file_path dir project_id) = none →
      load_action_items fs dir project_id = some []) ∧
    (fs (get_project_file_path dir project_id) = some DecodeOutcome.jsonError →
      load_action_items fs dir project_id = some []) ∧
    (∀ j : Json, (∀ xs, j ≠ .arr xs) →
      fs (get_project_file_path dir project_id) = some (DecodeOutcome.ok j) →
      load_action_items fs dir project_id = some []) ∧
    (fs (get_project_file_path dir project_id) = some DecodeOutcome.fatal →
      load_action_items fs dir project_id = none) := by
  refine ⟨?_, ?_, ?_, ?_⟩
  · intro h
    simp [load_action_items, h]
  · intro h
    simp [load_action_items, h]
  · intro j hj h
    unfold load_action_items
    rw [h]
    cases j with
    | arr xs => exact absurd rfl (hj xs)
    | null => rfl
    | bool b => rfl
    | num n => rfl
    | str s => rfl
    | obj kvs => rfl
  · intro h
    simp [load_action_items, h]

/-- Witness for the amended C8: a concrete store holding a
`JSONDecodeError` document for one project, a non-list document for
another, a document whose read raises outside the caught classes for a
third, and nothing for a fourth. -/
theorem claim_C8_amended_load_recovery_witness :
    load_action_items (fun p =>
      if p = get_project_file_path (pys "data") (pys "P1") then some DecodeOutcome.jsonError
      else if p = get_project_file_path (pys "data") (pys "P2")
        then some (DecodeOutcome.ok (.str (pys "x")))
      else if p = get_project_file_path (pys "data") (pys "P4") then some DecodeOutcome.fatal
      else none) (pys "data") (pys "P1") = some [] ∧
    load_action_items (fun p =>
      if p = get_project_file_path (pys "data") (pys "P1") then some DecodeOutcome.jsonError
      else if p = get_project_file_path (pys "data") (pys "P2")
        then some (DecodeOutcome.ok (.str (pys "x")))
      else if p = get_project_file_path (pys "data") (pys "P4") then some DecodeOutcome.fatal
      else none) (pys "data") (pys "P3") = some [] ∧
    load_action_items (fun p =>
      if p = get_project_file_path (pys "data") (pys "P1") then some DecodeOutcome.jsonError
      else if p = get_project_file_path (pys "data") (pys "P2")
        then some (DecodeOutcome.ok (.str (pys "x")))
      else if p = get_project_file_path (pys "data") (pys "P4") then some DecodeOutcome.fatal
      else none) (pys "data") (pys "P2") = some [] ∧
    load_action_items (fun p =>
      if p = get_project_file_path (pys "data") (pys "P1") then some DecodeOutcome.jsonError
      else if p = get_project_file_path (pys "data") (pys "P2")
        then some (DecodeOutcome.ok (.str (pys "x")))
      else if p = get_project_file_path (pys "data") (pys "P4") then some DecodeOutcome.fatal
      else none) (pys "data") (pys "P4") = none := by
  refine ⟨?_, ?_, ?_, ?_⟩
  · exact (claim_C8_amended_load_recovery _ (pys "data") (pys "P1")).2.1 (by decide)
  · exact (claim_C8_amended_load_recovery _ (pys "data") (pys "P3")).1 (by decide)
  · exact (claim_C8_amended_load_recovery _ (pys "data") (pys "P2")).2.2.1 (.str (pys "x"))
      (fun xs h => by cases h) (by decide)
  · exact (claim_C8_amended_load_recovery _ (pys "data") (pys "P4")).2.2.2 (by decide)

/-! ## Lemmas on the update loop of `update_action_item` -/

theorem applyOne_fst_aget_ne (st : Dict × List PyStr) (kv : PyStr × Json) (k : PyStr)
    (h : k ≠ kv.1) : aget (applyOne st kv).1 k = aget st.1 k := by
  unfold applyOne
  cases hg : aget st.1 kv.1 with
  | none => simp [aget_aset_ne _ _ _ _ h]
  | some v0 =>
    by_cases hv : v0 = kv.2
    · simp [hv]
    · simp [hv, aget_aset_ne _ _ _ _ h]

theorem applyOne_snd_extend (st : Dict × List PyStr) (kv : PyStr × Json) :
    ∃ e, (applyOne st kv).2 = st.2 ++ e := by
  unfold applyOne
  cases hg : aget st.1 kv.1 with
  | none => exact ⟨[addedMsg kv.1 kv.2], rfl⟩
  | some v0 =>
    by_cases hv : v0 = kv.2
    · exact ⟨[], by simp [hv]⟩
    · exact ⟨[changedMsg kv.1 v0 kv.2], by simp [hv]⟩

theorem foldl_applyOne_snd_extend (ups : Dict) :
    ∀ st : Dict × List PyStr, ∃ e, (ups.foldl applyOne st).2 = st.2 ++ e := by
  induction ups with
  | nil => exact fun st => ⟨[], by simp⟩
  | cons kv rest ih =>
    intro st
    obtain ⟨e1, he1⟩ := applyOne_snd_extend st kv
    obtain ⟨e2, he2⟩ := ih (applyOne st kv)
    exact ⟨e1 ++ e2, by rw [List.foldl_cons, he2, he1, List.append_assoc]⟩

theorem foldl_applyOne_fst_preserve (ups : Dict) :
    ∀ (st : Dict × List PyStr) (k : PyStr), k ∉ ups.map Prod.fst →
      aget (ups.foldl applyOne st).1 k = aget st.1 k := by
  induction ups with
  | nil => intro st k _; rfl
  | cons kv rest ih =>
    intro st k hk
    simp only [List.map_cons, List.mem_cons] at hk
    push_neg at hk
    rw [List.foldl_cons, ih (applyOne st kv) k hk.2, applyOne_fst_aget_ne st kv k hk.1]

theorem foldl_applyOne_noop (ups : Dict) :
    ∀ (item : Dict) (log : List PyStr), (∀ kv ∈ ups, aget item kv.1 = some kv.2) →
      ups.foldl applyOne (item, log) = (item, log) := by
  induction ups with
  | nil => intro item log _; rfl
  | cons kv rest ih =>
    intro item log h
    have hhd : aget item kv.1 = some kv.2 := h kv (List.mem_cons_self kv rest)
    have hstep : applyOne (item, log) kv = (item, log) := by
      unfold applyOne
      simp [hhd]
    rw [List.foldl_cons, hstep]
    exact ih item log (fun kv' hkv' => h kv' (List.mem_cons_of_mem _ hkv'))

theorem foldl_applyOne_snd_ne_nil (ups : Dict) :
    ∀ (item : Dict) (log : List PyStr), (∃ kv ∈ ups, aget item kv.1 ≠ some kv.2) →
      (ups.foldl applyOne (item, log)).2 ≠ [] := by
  induction ups with
  | nil => intro item log h; obtain ⟨kv, hkv, _⟩ := h; simp at hkv
  | cons kv rest ih =>
    intro item log h
    by_cases hhd : aget item kv.1 = some kv.2
    · have hstep : applyOne (item, log) kv = (item, log) := by
        unfold applyOne
        simp [hhd]
      rw [List.foldl_cons, hstep]
      obtain ⟨kv', hkv', hne⟩ := h
      rcases List.mem_cons.mp hkv' with heq | hmem
      · exact absurd (heq ▸ hhd) hne
      · exact ih item log ⟨kv', hmem, hne⟩
    · have hstep : ∃ m, applyOne (item, log) kv = ((applyOne (item, log) kv).1, log ++ [m]) := by
        unfold applyOne
        cases hg : aget item kv.1 with
        | none => exact ⟨addedMsg kv.1 kv.2, rfl⟩
        | some v0 =>
          have hv : ¬ v0 = kv.2 := fun he => hhd (by rw [hg, he])
          exact ⟨changedMsg kv.1 v0 kv.2, by simp [hv]⟩
      obtain ⟨m, hm⟩ := hstep
      rw [List.foldl_cons, hm]
      obtain ⟨e, he⟩ := foldl_applyOne_snd_extend rest ((applyOne (item, log) kv).1, log ++ [m])
      rw [he, List.append_assoc]
      exact List.append_ne_nil_of_right_ne_nil _ (by simp)

theorem foldl_applyOne_log_spec (ups : Dict) :
    ∀ (item : Dict) (log : List PyStr), (ups.map Prod.fst).Nodup →
      (ups.foldl applyOne (item, log)).2 = log ++ ups.filterMap (changeEntry item) := by
  induction ups with
  | nil => intro item log _; simp
  | cons kv rest ih =>
    intro item log hnd
    simp only [List.map_cons, List.nodup_cons] at hnd
    rw [List.foldl_cons]
    cases hg : aget item kv.1 with
    | some v0 =>
      by_cases hv : v0 = kv.2
      · have hstep : applyOne (item, log) kv = (item, log) := by
          unfold applyOne
          simp [hg, hv]
        rw [hstep, ih item log hnd.2]
        simp [List.filterMap_cons, changeEntry, hg, hv]
      · have hstep : applyOne (item, log) kv =
            (aset item kv.1 kv.2, log ++ [changedMsg kv.1 v0 kv.2]) := by
          unfold applyOne
          simp [hg, hv]
        rw [hstep, ih _ _ hnd.2]
        have hcong : List.filterMap (changeEntry (aset item kv.1 kv.2)) rest =
            List.filterMap (changeEntry item) rest := by
          apply List.filterMap_congr
          intro kv' hkv'
          have hne : kv'.1 ≠ kv.1 := by
            intro he
            exact hnd.1 (he ▸ List.mem_map_of_mem Prod.fst hkv')
          unfold changeEntry
          rw [aget_aset_ne _ _ _ _ hne]
        rw [hcong]
        simp [List.filterMap_cons, changeEntry, hg, hv]
    | none =>
      have hstep : applyOne (item, log) kv =
          (aset item kv.1 kv.2, log ++ [addedMsg kv.1 kv.2]) := by
        unfold applyOne
        simp [hg]
      rw [hstep, ih _ _ hnd.2]
      have hcong : List.filterMap (changeEntry (aset item kv.1 kv.2)) rest =
          List.filterMap (changeEntry item) rest := by
        apply List.filterMap_congr
        intro kv' hkv'
        have hne : kv'.1 ≠ kv.1 := by
          intro he
          exact hnd.1 (he ▸ List.mem_map_of_mem Prod.fst hkv')
        unfold changeEntry
        rw [aget_aset_ne _ _ _ _ hne]
      rw [hcong]
      simp [List.filterMap_cons, changeEntry, hg]

theorem foldl_applyOne_sets (ups : Dict) :
    ∀ (item : Dict) (log : List PyStr), (ups.map Prod.fst).Nodup →
      ∀ kv ∈ ups, aget (ups.foldl applyOne (item, log)).1 kv.1 = some kv.2 := by
  induction ups with
  | nil => intro item log _ kv hkv; simp at hkv
  | cons kv0 rest ih =>
    intro item log hnd kv hkv
    simp only [List.map_cons, List.nodup_cons] at hnd
    rw [List.foldl_cons]
    rcases List.mem_cons.mp hkv with heq | hmem
    · subst heq
      rw [foldl_applyOne_fst_preserve rest _ kv.1 hnd.1]
      unfold applyOne
      cases hg : aget item kv.1 with
      | none => simp [aget_aset_self]
      | some v0 =>
        by_cases hv : v0 = kv.2
        · simp [hv, hg]
        · simp [hv, aget_aset_self]
    · exact ih _ _ hnd.2 kv hmem

/-! ## Lemmas on `update_action_item` -/

theorem historyList_aset_uh (d : Dict) (xs : List Json) :
    historyList (aset d (pys "update_history") (.arr xs)) = xs := by
  unfold historyList
  rw [aget_aset_self]

theorem historyList_aset_ne (d : Dict) (k : PyStr) (v : Json) (h : k ≠ pys "update_history") :
    historyList (aset d k v) = historyList d := by
  unfold historyList
  rw [aget_aset_ne _ _ _ _ (Ne.symm h)]

theorem historyList_congr (d d' : Dict)
    (h : aget d (pys "update_history") = aget d' (pys "update_history")) :
    historyList d = historyList d' := by
  unfold historyList
  rw [h]

theorem update_noop (now : PyStr) (item ups : Dict)
    (h : ∀ kv ∈ ups, aget item kv.1 = some kv.2) :
    update_action_item now item ups = item := by
  have hr : applyAll item ups = (item, []) := foldl_applyOne_noop ups item [] h
  simp only [update_action_item, hr, if_true]
  split
  · case isTrue hc =>
    obtain ⟨hmem, hval⟩ := hc
    obtain ⟨v, hv⟩ := (amem_eq_true_iff ups (pys "status")).mp hmem
    have hit : aget item (pys "status") = some v :=
      h (pys "status", v) (aget_mem ups (pys "status") v hv)
    simp only [findOrigStatus, List.reverse_nil, List.findSome?_nil]
    rw [hit]
    simp only [Option.getD_some]
    exact aset_self item (pys "status") v hit
  · rfl

theorem update_meta (now : PyStr) (item ups : Dict)
    (hh : pys "update_history" ∉ ups.map Prod.fst)
    (hdiff : ∃ kv ∈ ups, aget item kv.1 ≠ some kv.2) :
    aget (update_action_item now item ups) (pys "updated_at") = some (.str now) ∧
    historyList (update_action_item now item ups) =
      historyList item ++ [mkHistoryEntry now (applyAll item ups).2] := by
  have hne : (applyAll item ups).2 ≠ [] := foldl_applyOne_snd_ne_nil ups item [] hdiff
  have hbase : aget (applyAll item ups).1 (pys "update_history") =
      aget item (pys "update_history") :=
    foldl_applyOne_fst_preserve ups (item, []) _ hh
  simp only [update_action_item, if_neg hne]
  have hi1 : historyList (aset (applyAll item ups).1 (pys "updated_at") (Json.str now)) =
      historyList item := by
    rw [historyList_aset_ne _ _ _ (by decide)]
    exact historyList_congr _ _ hbase
  have hua : aget (aset (aset (applyAll item ups).1 (pys "updated_at") (Json.str now))
      (pys "update_history")
      (.arr (historyList (aset (applyAll item ups).1 (pys "updated_at") (Json.str now)) ++
        [mkHistoryEntry now (applyAll item ups).2])) ) (pys "updated_at") = some (.str now) := by
    rw [aget_aset_ne _ _ _ _ (by decide), aget_aset_self]
  have huh : historyList (aset (aset (applyAll item ups).1 (pys "updated_at") (Json.str now))
      (pys "update_history")
      (.arr (historyList (aset (applyAll item ups).1 (pys "updated_at") (Json.str now)) ++
        [mkHistoryEntry now (applyAll item ups).2])) ) =
      historyList item ++ [mkHistoryEntry now (applyAll item ups).2] := by
    rw [historyList_aset_uh, hi1]
  split
  · constructor
    · rw [aget_aset_ne _ _ _ _ (by decide)]
      exact hua
    · rw [historyList_aset_ne _ _ _ (by decide)]
      exact huh
  · exact ⟨hua, huh⟩

theorem update_preserve (now : PyStr) (item ups : Dict) (k : PyStr)
    (hk : k ∉ ups.map Prod.fst) (h1 : k ≠ pys "updated_at") (h2 : k ≠ pys "update_history")
    (h3 : k ≠ pys "status") :
    aget (update_action_item now item ups) k = aget item k := by
  have hbase : aget (applyAll item ups).1 k = aget item k :=
    foldl_applyOne_fst_preserve ups (item, []) k hk
  simp only [update_action_item]
  by_cases hC1 : (applyAll item ups).2 = []
  · simp only [if_pos hC1]
    split
    · rw [aget_aset_ne _ _ _ _ h3]
      exact hbase
    · exact hbase
  · simp only [if_neg hC1]
    split
    · rw [aget_aset_ne _ _ _ _ h3, aget_aset_ne _ _ _ _ h2, aget_aset_ne _ _ _ _ h1]
      exact hbase
    · rw [aget_aset_ne _ _ _ _ h2, aget_aset_ne _ _ _ _ h1]
      exact hbase

theorem update_applied (now : PyStr) (item ups : Dict)
    (hnd : (ups.map Prod.fst).Nodup) (kv : PyStr × Json) (hkv : kv ∈ ups)
    (h1 : kv.1 ≠ pys "updated_at") (h2 : kv.1 ≠ pys "update_history")
    (h3 : kv.1 ≠ pys "status") :
    aget (update_action_item now item ups) kv.1 = some kv.2 := by
  have hbase : aget (applyAll item ups).1 kv.1 = some kv.2 :=
    foldl_applyOne_sets ups item [] hnd kv hkv
  simp only [update_action_item]
  by_cases hC1 : (applyAll item ups).2 = []
  · simp only [if_pos hC1]
    split
    · rw [aget_aset_ne _ _ _ _ h3]
      exact hbase
    · exact hbase
  · simp only [if_neg hC1]
    split
    · rw [aget_aset_ne _ _ _ _ h3, aget_aset_ne _ _ _ _ h2, aget_aset_ne _ _ _ _ h1]
      exact hbase
    · rw [aget_aset_ne _ _ _ _ h2, aget_aset_ne _ _ _ _ h1]
      exact hbase

theorem update_history_extends (now : PyStr) (item ups : Dict)
    (hh : pys "update_history" ∉ ups.map Prod.fst) :
    historyList item <+: historyList (update_action_item now item ups) := by
  have hbase : aget (applyAll item ups).1 (pys "update_history") =
      aget item (pys "update_history") :=
    foldl_applyOne_fst_preserve ups (item, []) _ hh
  by_cases hdiff : ∀ kv ∈ ups, aget item kv.1 = some kv.2
  · rw [update_noop now item ups hdiff]
  · push_neg at hdiff
    obtain ⟨kv, hkv, hne⟩ := hdiff
    rw [(update_meta now item ups hh ⟨kv, hkv, hne⟩).2]
    exact List.prefix_append _ _

/-! ## Claim C4: no-op updates leave the item alone; real updates bump
`updated_at` and append exactly one history entry -/

/-- Claim C4: for every item and field-update mapping (with distinct
keys, none of them the bookkeeping field `update_history`): when at least one supplied value differs from the
item's current value for that key (or is a new key), `update_action_item`
sets `updated_at` to the call's timestamp and appends exactly one
history entry; when every supplied value already equals the current
value, the item is returned completely unchanged; and `updated_at` can
change only when at least one supplied field actually differed. -/
theorem claim_C4_updated_at_discipline (now : PyStr) (item ups : Dict)
    (hnd : (ups.map Prod.fst).Nodup)
    (hh : pys "update_history" ∉ ups.map Prod.fst) :
    ((∃ kv ∈ ups, aget item kv.1 ≠ some kv.2) →
      aget (update_action_item now item ups) (pys "updated_at") = some (.str now) ∧
      historyList (update_action_item now item ups) =
        historyList item ++ [mkHistoryEntry now (ups.filterMap (changeEntry item))]) ∧
    ((∀ kv ∈ ups, aget item kv.1 = some kv.2) →
      update_action_item now item ups = item) ∧
    (aget (update_action_item now item ups) (pys "updated_at") ≠
        aget item (pys "updated_at") →
      ∃ kv ∈ ups, aget item kv.1 ≠ some kv.2) := by
  refine ⟨?_, update_noop now item ups, ?_⟩
  · intro hdiff
    have hlog : (applyAll item ups).2 = ups.filterMap (changeEntry item) := by
      have := foldl_applyOne_log_spec ups item [] hnd
      simpa using this
    have hm := update_meta now item ups hh hdiff
    rw [hlog] at hm
    exact hm
  · intro hchange
    by_contra hno
    push_neg at hno
    exact hchange (by rw [update_noop now item ups hno])

/-- Witness for C4 at a concrete item: a differing update bumps
`updated_at` and appends one entry; an all-equal update returns the item
unchanged. -/
theorem claim_C4_updated_at_discipline_witness :
    (aget (update_action_item (pys "T1")
        [(pys "task", .str (pys "Write docs")), (pys "owner", .str (pys "Dave")),
         (pys "status", .str (pys "Open")), (pys "updated_at", .str (pys "T0")),
         (pys "update_history", .arr [])]
        [(pys "owner", .str (pys "Bob"))]) (pys "updated_at") = some (.str (pys "T1")) ∧
      historyList (update_action_item (pys "T1")
        [(pys "task", .str (pys "Write docs")), (pys "owner", .str (pys "Dave")),
         (pys "status", .str (pys "Open")), (pys "updated_at", .str (pys "T0")),
         (pys "update_history", .arr [])]
        [(pys "owner", .str (pys "Bob"))]) =
        [] ++ [mkHistoryEntry (pys "T1")
          ([(pys "owner", Json.str (pys "Bob"))].filterMap (changeEntry
            [(pys "task", .str (pys "Write docs")), (pys "owner", .str (pys "Dave")),
             (pys "status", .str (pys "Open")), (pys "updated_at", .str (pys "T0")),
             (pys "update_history", .arr [])]))]) ∧
    update_action_item (pys "T1")
        [(pys "task", .str (pys "Write docs")), (pys "owner", .str (pys "Dave")),
         (pys "status", .str (pys "Open")), (pys "updated_at", .str (pys "T0")),
         (pys "update_history", .arr [])]
        [(pys "owner", .str (pys "Dave")), (pys "task", .str (pys "Write docs"))] =
      [(pys "task", .str (pys "Write docs")), (pys "owner", .str (pys "Dave")),
       (pys "status", .str (pys "Open")), (pys "updated_at", .str (pys "T0")),
       (pys "update_history", .arr [])] := by
  constructor
  · have h := (claim_C4_updated_at_discipline (pys "T1")
      [(pys "task", .str (pys "Write docs")), (pys "owner", .str (pys "Dave")),
       (pys "status", .str (pys "Open")), (pys "updated_at", .str (pys "T0")),
       (pys "update_history", .arr [])]
      [(pys "owner", .str (pys "Bob"))] (by decide) (by decide)).1
      ⟨(pys "owner", .str (pys "Bob")), by decide, by decide⟩
    have hhist : historyList
        [(pys "task", Json.str (pys "Write docs")), (pys "owner", Json.str (pys "Dave")),
         (pys "status", Json.str (pys "Open")), (pys "updated_at", Json.str (pys "T0")),
         (pys "update_history", Json.arr [])] = [] := by decide
    rw [hhist] at h
    exact h
  · exact (claim_C4_updated_at_discipline (pys "T1")
      [(pys "task", .str (pys "Write docs")), (pys "owner", .str (pys "Dave")),
       (pys "status", .str (pys "Open")), (pys "updated_at", .str (pys "T0")),
       (pys "update_history", .arr [])]
      [(pys "owner", .str (pys "Dave")), (pys "task", .str (pys "Write docs"))]
      (by decide) (by decide)).2.1 (by decide)

/-! ## Lemmas on the merge loop of `process_parsed_items` -/

theorem mem_aset {α β : Type} [DecidableEq α] (d : List (α × β)) (k : α) (v : β)
    (p : α × β) (h : p ∈ aset d k v) : p ∈ d ∨ p = (k, v) := by
  induction d with
  | nil =>
    simp only [aset, List.mem_singleton] at h
    exact Or.inr h
  | cons kv rest ih =>
    by_cases hk : kv.1 = k
    · simp only [aset, hk, if_pos, List.mem_cons] at h
      rcases h with h | h
      · exact Or.inr h
      · exact Or.inl (List.mem_cons_of_mem _ h)
    · simp only [aset, hk, if_neg, if_false, List.mem_cons] at h
      rcases h with h | h
      · exact Or.inl (h ▸ List.mem_cons_self kv rest)
      · rcases ih h with h2 | h2
        · exact Or.inl (List.mem_cons_of_mem _ h2)
        · exact Or.inr h2

theorem buildIdMapGo_idx_lt (existing : List Dict) :
    ∀ (i n : Nat) (acc m : List (Json × Nat)),
      buildIdMapGo existing i acc = some m →
      (∀ p ∈ acc, p.2 < n) → (i + existing.length ≤ n) →
      ∀ p ∈ m, p.2 < n := by
  induction existing with
  | nil =>
    intro i n acc m hm hacc _
    simp only [buildIdMapGo, Option.some.injEq] at hm
    exact hm ▸ hacc
  | cons it rest ih =>
    intro i n acc m hm hacc hle
    simp only [buildIdMapGo] at hm
    cases hgc : aget it (pys "id") with
    | none => rw [hgc] at hm; cases hm
    | some v =>
      rw [hgc] at hm
      change (if jhashable v then buildIdMapGo rest (i + 1) (aset acc v i) else none)
          = some m at hm
      by_cases hh : jhashable v = true
      · rw [if_pos hh] at hm
        apply ih (i + 1) n (aset acc v i) m hm
        · intro p hp
          rcases mem_aset acc v i p hp with h | h
          · exact hacc p h
          · rw [h]
            simp only [List.length_cons] at hle
            omega
        · simp only [List.length_cons] at hle
          omega
      · rw [if_neg hh] at hm
        cases hm

theorem buildIdMap_idx_lt (existing : List Dict) (m : List (Json × Nat))
    (hm : buildIdMap existing = some m) : ∀ p ∈ m, p.2 < existing.length ∨ existing.length = 0 := by
  intro p hp
  by_cases h0 : existing.length = 0
  · exact Or.inr h0
  · left
    exact buildIdMapGo_idx_lt existing 0 existing.length [] m hm (by simp) (by omega) p hp

theorem buildIdMapGo_total (existing : List Dict) :
    ∀ (i : Nat) (acc : List (Json × Nat)),
      (∀ it ∈ existing, ∃ v, aget it (pys "id") = some v ∧ jhashable v = true) →
      ∃ m, buildIdMapGo existing i acc = some m := by
  induction existing with
  | nil => intro i acc _; exact ⟨acc, rfl⟩
  | cons it rest ih =>
    intro i acc h
    obtain ⟨v, hv, hh⟩ := h it (List.mem_cons_self it rest)
    obtain ⟨m, hm⟩ := ih (i + 1) (aset acc v i) (fun it' hit' => h it' (List.mem_cons_of_mem _ hit'))
    exact ⟨m, by simp only [buildIdMapGo, hv, hh, if_true]; exact hm⟩

theorem matchedIdx_some_inv (m : List (Json × Nat)) (c : Dict) (idx : Nat)
    (h : matchedIdx m c = some (some idx)) :
    ∃ v, aget c (pys "id") = some v ∧ truthy v = true ∧ jhashable v = true ∧
      aget m v = some idx := by
  unfold matchedIdx at h
  split at h
  next v hv =>
    by_cases ht : truthy v = true
    · rw [if_pos ht] at h
      by_cases hh : jhashable v = true
      · rw [if_pos hh] at h
        exact ⟨v, hv, ht, hh, Option.some_inj.mp h⟩
      · rw [if_neg hh] at h
        cases h
    · rw [if_neg ht] at h
      cases Option.some_inj.mp h
  next hv => cases Option.some_inj.mp h

theorem matchedIdx_ne_none (m : List (Json × Nat)) (c : Dict)
    (h : ∀ v, aget c (pys "id") = some v → truthy v = true → jhashable v = true) :
    matchedIdx m c ≠ none := by
  unfold matchedIdx
  cases hv : aget c (pys "id") with
  | none => simp
  | some v =>
    change (if truthy v then (if jhashable v then some (aget m v) else none)
        else some none) ≠ none
    by_cases ht : truthy v = true
    · rw [if_pos ht, if_pos (h v hv ht)]
      simp
    · rw [if_neg ht]
      simp

theorem excluded_not_in_upd_keys (c : Dict) (k : PyStr) (hk : k ∈ excludedKeys) :
    k ∉ (c.filter (fun kv => decide (kv.1 ∉ excludedKeys))).map Prod.fst := by
  intro hmem
  obtain ⟨kv, hkv, hfst⟩ := List.mem_map.mp hmem
  have := (List.mem_filter.mp hkv).2
  rw [decide_eq_true_eq] at this
  exact this (hfst ▸ hk)

theorem mergeGo_frame (now pid : PyStr) (freshIds : Nat → PyStr) (m : List (Json × Nat)) :
    ∀ (parsed exist newAcc : List Dict) (k : Nat) (out : List Dict),
      (∀ p ∈ m, p.2 < exist.length) →
      mergeGo now pid freshIds m parsed exist newAcc k = some out →
      out.length = exist.length + newAcc.length + parsed.countP (isNewBranch m) ∧
      (∀ (j : Nat) (ex : Dict), exist[j]? = some ex → ∃ ex2, out[j]? = some ex2 ∧
        aget ex2 (pys "id") = aget ex (pys "id") ∧
        aget ex2 (pys "project_id") = aget ex (pys "project_id") ∧
        aget ex2 (pys "created_at") = aget ex (pys "created_at") ∧
        historyList ex <+: historyList ex2) := by
  intro parsed
  induction parsed with
  | nil =>
    intro exist newAcc k out hbound hout
    simp only [mergeGo, Option.some.injEq] at hout
    subst hout
    constructor
    · simp
    · intro j ex hj
      have hjlt : j < exist.length := by
        by_contra hge
        push_neg at hge
        rw [List.getElem?_eq_none hge] at hj
        cases hj
      refine ⟨ex, ?_, rfl, rfl, rfl, List.prefix_refl _⟩
      rw [List.getElem?_append, if_pos hjlt]
      exact hj
  | cons c rest ih =>
    intro exist newAcc k out hbound hout
    cases hm : matchedIdx m c with
    | none =>
      simp only [mergeGo, hm] at hout
      cases hout
    | some o =>
    cases o with
    | some idx =>
      obtain ⟨v, hv, htv, hhv, hmv⟩ := matchedIdx_some_inv m c idx hm
      have hidx : idx < exist.length := hbound (v, idx) (aget_mem m v idx hmv)
      obtain ⟨ex, hex⟩ : ∃ ex, exist[idx]? = some ex := ⟨_, List.getElem?_eq_getElem hidx⟩
      simp only [mergeGo, hm, hex] at hout
      have hbound2 : ∀ p ∈ m, p.2 <
          (exist.set idx (update_action_item now ex
            (c.filter (fun kv => decide (kv.1 ∉ excludedKeys))))).length := by
        rw [List.length_set]
        exact hbound
      obtain ⟨hlen, hframe⟩ := ih _ newAcc k out hbound2 hout
      constructor
      · rw [hlen, List.length_set, List.countP_cons]
        have hnb : isNewBranch m c = false := by
          unfold isNewBranch
          rw [hm]
          rfl
        rw [hnb]
        simp
      · intro j ex' hj
        by_cases hjidx : j = idx
        · subst hjidx
          have hex' : ex' = ex := by
            rw [hj] at hex
            exact Option.some_inj.mp hex
          subst hex'
          have hj2 : (exist.set j (update_action_item now ex'
              (c.filter (fun kv => decide (kv.1 ∉ excludedKeys)))))[j]? =
              some (update_action_item now ex'
                (c.filter (fun kv => decide (kv.1 ∉ excludedKeys)))) := by
            rw [List.getElem?_set]
            simp [hidx]
          obtain ⟨ex2, hex2, p1, p2, p3, p4⟩ := hframe j _ hj2
          have hupd := fun (kk : PyStr) (hkk : kk ∈ excludedKeys)
              (n1 : kk ≠ pys "updated_at") (n2 : kk ≠ pys "update_history")
              (n3 : kk ≠ pys "status") =>
            update_preserve now ex' (c.filter (fun kv => decide (kv.1 ∉ excludedKeys))) kk
              (excluded_not_in_upd_keys c kk hkk) n1 n2 n3
          refine ⟨ex2, hex2, ?_, ?_, ?_, ?_⟩
          · rw [p1, hupd (pys "id") (by decide) (by decide) (by decide) (by decide)]
          · rw [p2, hupd (pys "project_id") (by decide) (by decide) (by decide) (by decide)]
          · rw [p3, hupd (pys "created_at") (by decide) (by decide) (by decide) (by decide)]
          · exact List.IsPrefix.trans
              (update_history_extends now ex' _
                (excluded_not_in_upd_keys c (pys "update_history") (by decide))) p4
        · have hj2 : (exist.set idx (update_action_item now ex
              (c.filter (fun kv => decide (kv.1 ∉ excludedKeys)))))[j]? = some ex' := by
            rw [List.getElem?_set, if_neg (fun he => hjidx he.symm)]
            exact hj
          exact hframe j ex' hj2
    | none =>
      by_cases ht : amem c (pys "task") = true
      · by_cases hsl : sliceable ((aget c (pys "task")).getD .null) = true
        · simp only [mergeGo, hm, ht, hsl, if_true] at hout
          obtain ⟨hlen, hframe⟩ := ih exist _ (k + 1) out hbound hout
          refine ⟨?_, hframe⟩
          rw [hlen, List.length_append, List.countP_cons]
          have hnb : isNewBranch m c = true := by
            unfold isNewBranch
            rw [hm, ht]
            rfl
          rw [hnb]
          simp
          omega
        · simp only [mergeGo, hm, ht, hsl] at hout
          simp at hout
      · simp only [mergeGo, hm] at hout
        rw [if_neg ht] at hout
        obtain ⟨hlen, hframe⟩ := ih exist newAcc k out hbound hout
        refine ⟨?_, hframe⟩
        rw [hlen, List.countP_cons]
        have ht' : amem c (pys "task") = false := by
          revert ht
          cases amem c (pys "task") <;> simp
        have hnb : isNewBranch m c = false := by
          unfold isNewBranch
          rw [hm, ht']
          rfl
        rw [hnb]
        simp

theorem mergeGo_total (now pid : PyStr) (freshIds : Nat → PyStr) (m : List (Json × Nat)) :
    ∀ (parsed exist newAcc : List Dict) (k : Nat),
      (∀ p ∈ m, p.2 < exist.length) →
      (∀ c ∈ parsed, matchedIdx m c ≠ none) →
      (∀ c ∈ parsed, matchedIdx m c = some none → amem c (pys "task") = true →
        sliceable ((aget c (pys "task")).getD .null) = true) →
      ∃ out, mergeGo now pid freshIds m parsed exist newAcc k = some out := by
  intro parsed
  induction parsed with
  | nil => intro exist newAcc k _ _ _; exact ⟨exist ++ newAcc, rfl⟩
  | cons c rest ih =>
    intro exist newAcc k hbound hne hsafe
    have hne' : ∀ c' ∈ rest, matchedIdx m c' ≠ none :=
      fun c' hc' => hne c' (List.mem_cons_of_mem _ hc')
    have hsafe' : ∀ c' ∈ rest, matchedIdx m c' = some none → amem c' (pys "task") = true →
        sliceable ((aget c' (pys "task")).getD .null) = true :=
      fun c' hc' => hsafe c' (List.mem_cons_of_mem _ hc')
    cases hm : matchedIdx m c with
    | none => exact absurd hm (hne c (List.mem_cons_self c rest))
    | some o =>
    cases o with
    | some idx =>
      obtain ⟨v, hv, htv, hhv, hmv⟩ := matchedIdx_some_inv m c idx hm
      have hidx : idx < exist.length := hbound (v, idx) (aget_mem m v idx hmv)
      obtain ⟨ex, hex⟩ : ∃ ex, exist[idx]? = some ex := ⟨_, List.getElem?_eq_getElem hidx⟩
      have hbound2 : ∀ p ∈ m, p.2 <
          (exist.set idx (update_action_item now ex
            (c.filter (fun kv => decide (kv.1 ∉ excludedKeys))))).length := by
        rw [List.length_set]
        exact hbound
      obtain ⟨out, hout⟩ := ih _ newAcc k hbound2 hne' hsafe'
      refine ⟨out, ?_⟩
      simp only [mergeGo, hm, hex]
      exact hout
    | none =>
      by_cases ht : amem c (pys "task") = true
      · have hsl := hsafe c (List.mem_cons_self c rest) hm ht
        obtain ⟨out, hout⟩ := ih exist _ (k + 1) hbound hne' hsafe'
        refine ⟨out, ?_⟩
        simp only [mergeGo, hm, ht, hsl, if_true]
        exact hout
      · obtain ⟨out, hout⟩ := ih exist newAcc k hbound hne' hsafe'
        refine ⟨out, ?_⟩
        simp only [mergeGo, hm]
        rw [if_neg ht]
        exact hout

theorem mergeGo_all_skip (now pid : PyStr) (freshIds : Nat → PyStr) (m : List (Json × Nat)) :
    ∀ (parsed exist newAcc : List Dict) (k : Nat),
      (∀ c ∈ parsed, matchedIdx m c = some none ∧ amem c (pys "task") = false) →
      mergeGo now pid freshIds m parsed exist newAcc k = some (exist ++ newAcc) := by
  intro parsed
  induction parsed with
  | nil => intro exist newAcc k _; rfl
  | cons c rest ih =>
    intro exist newAcc k h
    obtain ⟨hm, ht⟩ := h c (List.mem_cons_self c rest)
    simp only [mergeGo, hm]
    rw [if_neg (by rw [ht]; exact Bool.false_ne_true)]
    exact ih exist newAcc k (fun c' hc' => h c' (List.mem_cons_of_mem _ hc'))

/-! ## Claim C5: a matched candidate is a pure in-place update -/

/-- Claim C5: whenever the merge succeeds, the output has exactly one
entry per existing item plus one per new-branch candidate — a candidate
whose id matches an existing item adds nothing — and every existing
item keeps its position with its `id`, `project_id` and `created_at`
unchanged and its previously recorded `update_history` entries intact
(the update only appends), because those keys are excluded from the
field-update mapping passed to `update_action_item`. -/
theorem claim_C5_matched_update_in_place (freshIds : Nat → PyStr) (now pid : PyStr)
    (parsed existing : List Dict) (m : List (Json × Nat)) (out : List Dict)
    (hm : buildIdMap existing = some m)
    (hout : process_parsed_items freshIds now pid parsed existing = some out) :
    out.length = existing.length + parsed.countP (isNewBranch m) ∧
    (∀ (j : Nat) (ex : Dict), existing[j]? = some ex → ∃ ex2, out[j]? = some ex2 ∧
      aget ex2 (pys "id") = aget ex (pys "id") ∧
      aget ex2 (pys "project_id") = aget ex (pys "project_id") ∧
      aget ex2 (pys "created_at") = aget ex (pys "created_at") ∧
      historyList ex <+: historyList ex2) := by
  have hbound : ∀ p ∈ m, p.2 < existing.length :=
    buildIdMapGo_idx_lt existing 0 existing.length [] m hm (by simp) (by omega)
  have hmg : mergeGo now pid freshIds m parsed existing [] 0 = some out := by
    simpa [process_parsed_items, hm] using hout
  obtain ⟨h1, h2⟩ := mergeGo_frame now pid freshIds m parsed existing [] 0 out hbound hmg
  refine ⟨?_, h2⟩
  rw [h1, List.length_nil, Nat.add_zero]

/-- Witness for C5: one existing item, one matched candidate supplying
an equal task (a no-op update), so the merge result is computable. -/
theorem claim_C5_matched_update_in_place_witness :
    ([[(pys "id", Json.str (pys "xyz")), (pys "task", Json.str (pys "T"))]] : List Dict).length =
      ([[(pys "id", Json.str (pys "xyz")), (pys "task", Json.str (pys "T"))]] : List Dict).length +
      List.countP (isNewBranch [(Json.str (pys "xyz"), 0)])
        [[(pys "id", Json.str (pys "xyz")), (pys "task", Json.str (pys "T"))]] :=
  (claim_C5_matched_update_in_place (fun _ => pys "u0") (pys "N") (pys "P")
    [[(pys "id", Json.str (pys "xyz")), (pys "task", Json.str (pys "T"))]]
    [[(pys "id", Json.str (pys "xyz")), (pys "task", Json.str (pys "T"))]]
    [(Json.str (pys "xyz"), 0)]
    [[(pys "id", Json.str (pys "xyz")), (pys "task", Json.str (pys "T"))]]
    (by decide) (by decide)).1

/-! ## Claim C2: candidates with no id match and no usable task -/

/-- Counterexample to claim C2 as stated: a candidate whose `task` field
is present but empty (`""`, a falsy string) and which matches no
existing id is *not* dropped — merging it into an empty store yields an
output of length 1, not 0.  The code only tests key presence
(`"task" in llm_item`), not non-emptiness. -/
theorem claim_C2_counterexample :
    aget [(pys "task", Json.str [])] (pys "task") = some (.str []) ∧
    truthy (Json.str []) = false ∧
    ([] : List Dict).length = 0 ∧
    (process_parsed_items (fun _ => pys "u0") (pys "T0") (pys "P")
      [[(pys "task", Json.str [])]] []).map List.length = some 1 := by
  decide

/-- Claim C2 (amended): a candidate whose id test completes with no
match (`matchedIdx m c = some none`: its id is absent, falsy, or
hashable and unmatched — a truthy unhashable id would instead raise
`TypeError` in the membership test) is dropped — the output equals the
existing list — exactly when its `task` KEY is missing; a
present-but-empty `task` value still creates an item (see the
counterexample).  Stated for a whole candidate list of such records. -/
theorem claim_C2_amended_missing_task_dropped (freshIds : Nat → PyStr) (now pid : PyStr)
    (parsed existing : List Dict) (m : List (Json × Nat))
    (hm : buildIdMap existing = some m)
    (hc : ∀ c ∈ parsed, matchedIdx m c = some none ∧ amem c (pys "task") = false) :
    process_parsed_items freshIds now pid parsed existing = some existing := by
  simp only [process_parsed_items, hm]
  simpa using mergeGo_all_skip now pid freshIds m parsed existing [] 0 hc

/-- Witness for the amended C2: a candidate carrying only an `owner`
(no `task` key, no matching id) leaves the store untouched. -/
theorem claim_C2_amended_missing_task_dropped_witness :
    process_parsed_items (fun _ => pys "u0") (pys "T0") (pys "P")
      [[(pys "owner", Json.str (pys "A"))]]
      [[(pys "id", Json.str (pys "e1"))]] =
    some [[(pys "id", Json.str (pys "e1"))]] :=
  claim_C2_amended_missing_task_dropped (fun _ => pys "u0") (pys "T0") (pys "P")
    [[(pys "owner", Json.str (pys "A"))]] [[(pys "id", Json.str (pys "e1"))]]
    [(Json.str (pys "e1"), 0)] (by decide) (by decide)

/-! ## Claim C9: totality preconditions of the merge -/

/-- Counterexample to claim C9 as stated: its two preconditions — every
existing record carries an `"id"` key, and every unmatched candidate
with a `task` key has a sliceable task value — are not sufficient for
the merge to complete.  The candidate
`{"id": [1], "task": "t"}` satisfies both (the empty existing list
trivially carries ids; its task is a sliceable string), yet the call
fails: `item_id and item_id in existing_items_map` raises `TypeError`
on the truthy unhashable list id.  Likewise the existing record
`{"id": ["x"]}` carries an `"id"` key, yet building
`{item["id"]: item}` raises `TypeError` on the unhashable key. -/
theorem claim_C9_counterexample :
    (∀ it ∈ ([] : List Dict), amem it (pys "id") = true) ∧
    sliceable (Json.str (pys "t")) = true ∧
    process_parsed_items (fun _ => pys "u0") (pys "N") (pys "P")
      [[(pys "id", Json.arr [Json.num 1]), (pys "task", Json.str (pys "t"))]] [] = none ∧
    (∀ it ∈ [[(pys "id", Json.arr [Json.str (pys "x")])]], amem it (pys "id") = true) ∧
    process_parsed_items (fun _ => pys "u0") (pys "N") (pys "P")
      [] [[(pys "id", Json.arr [Json.str (pys "x")])]] = none := by
  decide

/-- Claim C9 (amended): the merge is total under strengthened
preconditions at its public interface — every existing record carries a
hashable `"id"` value (the id map indexes and hashes `item["id"]`
unconditionally), every candidate whose `"id"` value is present and
truthy has a hashable one (the membership test hashes it), and every
candidate reaching the new-item branch with a `task` key has a
sliceable task value (the code evaluates `llm_item.get('task')[:50]`
without a guard).  Under them the call returns a result for every
candidate list; outside them it fails instead of skipping the
offending record: a candidate with a null task raises (`none`), as
does an existing record without an `"id"` key — and, per the
counterexample, so does a truthy unhashable id on either side. -/
theorem claim_C9_amended_totality (freshIds : Nat → PyStr) (now pid : PyStr) :
    (∀ (parsed existing : List Dict),
      (∀ it ∈ existing, ∃ v, aget it (pys "id") = some v ∧ jhashable v = true) →
      (∀ c ∈ parsed, ∀ v, aget c (pys "id") = some v → truthy v = true →
        jhashable v = true) →
      (∀ (m : List (Json × Nat)), buildIdMap existing = some m →
        ∀ c ∈ parsed, matchedIdx m c = some none → amem c (pys "task") = true →
          sliceable ((aget c (pys "task")).getD .null) = true) →
      (process_parsed_items freshIds now pid parsed existing).isSome = true) ∧
    process_parsed_items freshIds now pid [[(pys "task", Json.null)]] [] = none ∧
    process_parsed_items freshIds now pid [] [[(pys "owner", Json.null)]] = none := by
  refine ⟨?_, rfl, rfl⟩
  intro parsed existing hid hch hsafe
  obtain ⟨m, hm⟩ := buildIdMapGo_total existing 0 [] hid
  have hbound : ∀ p ∈ m, p.2 < existing.length :=
    buildIdMapGo_idx_lt existing 0 existing.length [] m hm (by simp) (by omega)
  have hne : ∀ c ∈ parsed, matchedIdx m c ≠ none :=
    fun c hc => matchedIdx_ne_none m c (hch c hc)
  obtain ⟨out, hout⟩ :=
    mergeGo_total now pid freshIds m parsed existing [] 0 hbound hne (hsafe m hm)
  have hm' : buildIdMap existing = some m := hm
  simp [process_parsed_items, hm', hout]

/-- Witness for the amended C9: under the strengthened preconditions a
concrete merge returns a result; the two failure examples are restated
concretely. -/
theorem claim_C9_amended_totality_witness :
    (process_parsed_items (fun _ => pys "u0") (pys "N") (pys "P")
      [[(pys "task", Json.str (pys "A"))]]
      [[(pys "id", Json.str (pys "e1"))]]).isSome = true ∧
    process_parsed_items (fun _ => pys "u0") (pys "N") (pys "P")
      [[(pys "task", Json.null)]] [] = none ∧
    process_parsed_items (fun _ => pys "u0") (pys "N") (pys "P")
      [] [[(pys "owner", Json.null)]] = none := by
  have h := claim_C9_amended_totality (fun _ => pys "u0") (pys "N") (pys "P")
  refine ⟨h.1 [[(pys "task", Json.str (pys "A"))]] [[(pys "id", Json.str (pys "e1"))]]
    ?_ ?_ ?_, h.2.1, h.2.2⟩
  · intro it hit
    rw [List.mem_singleton] at hit
    subst hit
    exact ⟨Json.str (pys "e1"), rfl, rfl⟩
  · intro c hc v hv _htv
    rw [List.mem_singleton] at hc
    subst hc
    exact Option.noConfusion (show (none : Option Json) = some v from hv)
  · intro _m _hm c hc _hmi _ht
    rw [List.mem_singleton] at hc
    subst hc
    decide

/-! ## Claim C10: a candidate's unmatched id is silently discarded -/

/-- Counterexample to claim C10 as stated: a candidate carrying an id
that matches no existing item's id together with a `task` key is NOT
always treated as a new item.  For the truthy unhashable id `[1]`, the
membership test `item_id in existing_items_map` raises `TypeError`, so
the call fails instead of creating an item. -/
theorem claim_C10_counterexample :
    aget [(pys "id", Json.arr [Json.num 1]), (pys "task", Json.str (pys "t"))] (pys "id") =
      some (Json.arr [Json.num 1]) ∧
    amem [(pys "id", Json.arr [Json.num 1]), (pys "task", Json.str (pys "t"))]
      (pys "task") = true ∧
    process_parsed_items (fun _ => pys "u0") (pys "N") (pys "P")
      [[(pys "id", Json.arr [Json.num 1]), (pys "task", Json.str (pys "t"))]]
      [[(pys "id", Json.str (pys "e1"))]] = none := by
  decide

/-- Claim C10 (amended): a candidate carrying a hashable `id` that
matches no existing item (an unhashable one raises instead — see the
counterexample) but carrying a `task` key is treated as a new item
appended at the end, and its supplied id is discarded: the created
item's id is the fresh `uuid4` draw, so whenever that draw differs
from the supplied id the created item does not carry the candidate's
id. -/
theorem claim_C10_amended_unmatched_id_discarded (freshIds : Nat → PyStr) (now pid : PyStr)
    (existing : List Dict) (m : List (Json × Nat)) (c : Dict) (cid : Json)
    (hm : buildIdMap existing = some m)
    (hcid : aget c (pys "id") = some cid)
    (hhash : jhashable cid = true)
    (hnomatch : aget m cid = none)
    (ht : amem c (pys "task") = true)
    (hsl : sliceable ((aget c (pys "task")).getD .null) = true) :
    ∃ ni, process_parsed_items freshIds now pid [c] existing = some (existing ++ [ni]) ∧
      aget ni (pys "id") = some (.str (freshIds 0)) ∧
      (Json.str (freshIds 0) ≠ cid → aget ni (pys "id") ≠ some cid) := by
  have hmi : matchedIdx m c = some none := by
    simp only [matchedIdx, hcid]
    by_cases hb : truthy cid = true
    · simp [hb, hhash, hnomatch]
    · simp [hb]
  have hres : process_parsed_items freshIds now pid [c] existing =
      some (existing ++ [if amem c (pys "status") = true ∧
          (aget c (pys "status")).getD Json.null ∉ validStatusJson
        then aset (create_action_item (freshIds 0) now pid ((aget c (pys "task")).getD .null)
          ((aget c (pys "owner")).getD .null) ((aget c (pys "deadline")).getD .null)
          ((aget c (pys "status")).getD (.str (pys "Open"))) (.str (pys "LLM Extraction")))
          (pys "status") (.str (pys "Open"))
        else create_action_item (freshIds 0) now pid ((aget c (pys "task")).getD .null)
          ((aget c (pys "owner")).getD .null) ((aget c (pys "deadline")).getD .null)
          ((aget c (pys "status")).getD (.str (pys "Open"))) (.str (pys "LLM Extraction"))]) := by
    simp only [process_parsed_items, hm, mergeGo, hmi, ht, hsl, if_true]
    rw [List.nil_append]
  refine ⟨_, hres, ?_, ?_⟩
  · by_cases hcond : amem c (pys "status") = true ∧
        (aget c (pys "status")).getD Json.null ∉ validStatusJson
    · rw [if_pos hcond, aget_aset_ne _ _ _ _ (by decide)]
      rfl
    · rw [if_neg hcond]
      rfl
  · intro hne habs
    by_cases hcond : amem c (pys "status") = true ∧
        (aget c (pys "status")).getD Json.null ∉ validStatusJson
    · rw [if_pos hcond, aget_aset_ne _ _ _ _ (by decide)] at habs
      exact hne (Option.some_inj.mp habs)
    · rw [if_neg hcond] at habs
      exact hne (Option.some_inj.mp habs)

/-- Witness for the amended C10: a candidate with the unmatched
hashable id `"zzz"` against a store with one item `"e1"` becomes a
fresh item carrying the supplied uuid `"u0"`, not `"zzz"`. -/
theorem claim_C10_amended_unmatched_id_discarded_witness :
    process_parsed_items (fun _ => pys "u0") (pys "N") (pys "P")
      [[(pys "id", Json.str (pys "zzz")), (pys "task", Json.str (pys "A"))]]
      [[(pys "id", Json.str (pys "e1"))]] =
    some ([[(pys "id", Json.str (pys "e1"))]] ++
      [create_action_item (pys "u0") (pys "N") (pys "P") (Json.str (pys "A"))
        Json.null Json.null (Json.str (pys "Open")) (Json.str (pys "LLM Extraction"))]) ∧
    aget (create_action_item (pys "u0") (pys "N") (pys "P") (Json.str (pys "A"))
        Json.null Json.null (Json.str (pys "Open")) (Json.str (pys "LLM Extraction")))
      (pys "id") ≠ some (Json.str (pys "zzz")) := by
  obtain ⟨ni, h1, h2, h3⟩ := claim_C10_amended_unmatched_id_discarded (fun _ => pys "u0")
    (pys "N") (pys "P") [[(pys "id", Json.str (pys "e1"))]] [(Json.str (pys "e1"), 0)]
    [(pys "id", Json.str (pys "zzz")), (pys "task", Json.str (pys "A"))]
    (Json.str (pys "zzz")) (by decide) (by decide) (by decide) (by decide) (by decide)
    (by decide)
  have h4 : [[(pys "id", Json.str (pys "e1"))]] ++ [ni] =
      [[(pys "id", Json.str (pys "e1"))]] ++
      [create_action_item (pys "u0") (pys "N") (pys "P") (Json.str (pys "A"))
        Json.null Json.null (Json.str (pys "Open")) (Json.str (pys "LLM Extraction"))] :=
    Option.some_inj.mp (h1.symm.trans (by decide))
  have h5 := List.append_cancel_left h4
  injection h5 with h6 _
  constructor
  · rw [← h6]
    exact h1
  · rw [← h6]
    exact h3 (by decide)

/-! ## Claim C6: end-to-end single-candidate create into an empty store -/

/-- Claim C6: merging one candidate with a non-empty task (and no id)
into an empty store yields exactly one new item, appended after the
(empty) existing list; its status is `Open` both when the candidate
supplies no status and when it supplies one outside the four valid
values; its `source_meeting` is the fixed `"LLM Extraction"` marker and
its `update_history` is empty. -/
theorem claim_C6_create_defaults (freshIds : Nat → PyStr) (now pid : PyStr)
    (c : Dict) (t : PyStr)
    (hid : aget c (pys "id") = none)
    (htask : aget c (pys "task") = some (.str t)) (_htne : t ≠ [])
    (hst : aget c (pys "status") = none ∨
      ∃ v, aget c (pys "status") = some v ∧ v ∉ validStatusJson) :
    ∃ ni, process_parsed_items freshIds now pid [c] [] = some ([] ++ [ni]) ∧
      aget ni (pys "status") = some (.str (pys "Open")) ∧
      aget ni (pys "source_meeting") = some (.str (pys "LLM Extraction")) ∧
      aget ni (pys "update_history") = some (.arr []) ∧
      historyList ni = [] := by
  have hmi : matchedIdx ([] : List (Json × Nat)) c = some none := by
    simp [matchedIdx, hid]
  have ht : amem c (pys "task") = true := by
    simp [amem, htask]
  have hsl : sliceable ((aget c (pys "task")).getD .null) = true := by
    rw [htask]
    rfl
  have hres : process_parsed_items freshIds now pid [c] [] =
      some ([] ++ [if amem c (pys "status") = true ∧
          (aget c (pys "status")).getD Json.null ∉ validStatusJson
        then aset (create_action_item (freshIds 0) now pid ((aget c (pys "task")).getD .null)
          ((aget c (pys "owner")).getD .null) ((aget c (pys "deadline")).getD .null)
          ((aget c (pys "status")).getD (.str (pys "Open"))) (.str (pys "LLM Extraction")))
          (pys "status") (.str (pys "Open"))
        else create_action_item (freshIds 0) now pid ((aget c (pys "task")).getD .null)
          ((aget c (pys "owner")).getD .null) ((aget c (pys "deadline")).getD .null)
          ((aget c (pys "status")).getD (.str (pys "Open"))) (.str (pys "LLM Extraction"))]) := by
    simp only [process_parsed_items,
      show buildIdMap ([] : List Dict) = some [] from rfl, mergeGo, hmi, ht, hsl, if_true]
    rfl
  refine ⟨_, hres, ?_, ?_, ?_, ?_⟩
  · rcases hst with hnone | ⟨v, hv, hinv⟩
    · have hcond : ¬ (amem c (pys "status") = true ∧
          (aget c (pys "status")).getD Json.null ∉ validStatusJson) := by
        intro hc
        rw [amem, hnone] at hc
        cases hc.1
      rw [if_neg hcond, hnone]
      rfl
    · have hcond : amem c (pys "status") = true ∧
          (aget c (pys "status")).getD Json.null ∉ validStatusJson := by
        constructor
        · simp [amem, hv]
        · rw [hv]
          exact hinv
      rw [if_pos hcond]
      exact aget_aset_self _ _ _
  · by_cases hcond : amem c (pys "status") = true ∧
        (aget c (pys "status")).getD Json.null ∉ validStatusJson
    · rw [if_pos hcond, aget_aset_ne _ _ _ _ (by decide)]
      rfl
    · rw [if_neg hcond]
      rfl
  · by_cases hcond : amem c (pys "status") = true ∧
        (aget c (pys "status")).getD Json.null ∉ validStatusJson
    · rw [if_pos hcond, aget_aset_ne _ _ _ _ (by decide)]
      rfl
    · rw [if_neg hcond]
      rfl
  · by_cases hcond : amem c (pys "status") = true ∧
        (aget c (pys "status")).getD Json.null ∉ validStatusJson
    · rw [if_pos hcond, historyList_aset_ne _ _ _ (by decide)]
      rfl
    · rw [if_neg hcond]
      rfl

/-- Witness for C6: the spec's own example, a candidate
`{task: "Finalize the report", owner: "Alice", deadline: "next Friday"}`
merged into an empty store. -/
theorem claim_C6_create_defaults_witness :
    process_parsed_items (fun _ => pys "u0") (pys "N") (pys "P")
      [[(pys "task", Json.str (pys "Finalize the report")),
        (pys "owner", Json.str (pys "Alice")),
        (pys "deadline", Json.str (pys "next Friday"))]] [] =
    some ([] ++ [create_action_item (pys "u0") (pys "N") (pys "P")
      (Json.str (pys "Finalize the report")) (Json.str (pys "Alice"))
      (Json.str (pys "next Friday")) (Json.str (pys "Open"))
      (Json.str (pys "LLM Extraction"))]) ∧
    aget (create_action_item (pys "u0") (pys "N") (pys "P")
      (Json.str (pys "Finalize the report")) (Json.str (pys "Alice"))
      (Json.str (pys "next Friday")) (Json.str (pys "Open"))
      (Json.str (pys "LLM Extraction"))) (pys "status") = some (.str (pys "Open")) ∧
    aget (create_action_item (pys "u0") (pys "N") (pys "P")
      (Json.str (pys "Finalize the report")) (Json.str (pys "Alice"))
      (Json.str (pys "next Friday")) (Json.str (pys "Open"))
      (Json.str (pys "LLM Extraction"))) (pys "source_meeting") =
      some (.str (pys "LLM Extraction")) ∧
    historyList (create_action_item (pys "u0") (pys "N") (pys "P")
      (Json.str (pys "Finalize the report")) (Json.str (pys "Alice"))
      (Json.str (pys "next Friday")) (Json.str (pys "Open"))
      (Json.str (pys "LLM Extraction"))) = [] := by
  obtain ⟨ni, h1, h2, h3, h4, h5⟩ := claim_C6_create_defaults (fun _ => pys "u0")
    (pys "N") (pys "P")
    [(pys "task", Json.str (pys "Finalize the report")),
     (pys "owner", Json.str (pys "Alice")),
     (pys "deadline", Json.str (pys "next Friday"))]
    (pys "Finalize the report") (by decide) (by decide) (by decide) (Or.inl (by decide))
  have h6 : ([] : List Dict) ++ [ni] = [] ++ [create_action_item (pys "u0") (pys "N") (pys "P")
      (Json.str (pys "Finalize the report")) (Json.str (pys "Alice"))
      (Json.str (pys "next Friday")) (Json.str (pys "Open"))
      (Json.str (pys "LLM Extraction"))] :=
    Option.some_inj.mp (h1.symm.trans (by decide))
  have h7 := List.append_cancel_left h6
  injection h7 with h8 _
  exact ⟨h8 ▸ h1, h8 ▸ h2, h8 ▸ h3, h8 ▸ h5⟩

/-! ## Claim C3: the parser's object fallback -/

/-- Counterexample to claim C3 as stated: on `"[x] {"a": "b"}"` the
first-`[`/last-`]` slice `"[x]"` exists but fails to decode, and the
first-`{`/last-`}` slice decodes to a single record — yet
`parse_llm_json_response` returns `None` rather than falling back to the
object path: the fallback is only reached when the bracket *search*
fails, not when the bracket decode fails. -/
theorem claim_C3_counterexample :
    findIdxCh '[' (pys "[x] \x7b\"a\": \"b\"\x7d") = some 0 ∧
    rfindIdxCh ']' (pys "[x] \x7b\"a\": \"b\"\x7d") = some 2 ∧
    jsonLoads (sliceIncl (pys "[x] \x7b\"a\": \"b\"\x7d") 0 2) = none ∧
    findIdxCh '\x7b' (pys "[x] \x7b\"a\": \"b\"\x7d") = some 4 ∧
    rfindIdxCh '\x7d' (pys "[x] \x7b\"a\": \"b\"\x7d") = some 13 ∧
    jsonLoads (sliceIncl (pys "[x] \x7b\"a\": \"b\"\x7d") 4 13) =
      some (.obj [(pys "a", .str (pys "b"))]) ∧
    parse_llm_json_response jsonLoads (pys "[x] \x7b\"a\": \"b\"\x7d") = none := by
  decide

/-- Claim C3 (amended): the object fallback runs exactly when the
bracket *search* fails (no `[`, no `]`, or the last `]` before the first
`[`); then, when the first-`{`/last-`}` slice exists in order and
decodes to a single record, the record is returned wrapped in a
one-element sequence.  When the bracket slice exists but fails to
decode, the function returns `None` without attempting the fallback
(see the counterexample). -/
theorem claim_C3_amended_fallback_on_search_failure (loads : PyStr → Option Json)
    (rc : PyStr) (kvs : List (PyStr × Json)) (js' je' : Nat)
    (hne : rc ≠ [])
    (hfail : findIdxCh '[' rc = none ∨ rfindIdxCh ']' rc = none ∨
      ∃ js je, findIdxCh '[' rc = some js ∧ rfindIdxCh ']' rc = some je ∧ je < js)
    (hjs : findIdxCh '\x7b' rc = some js')
    (hje : rfindIdxCh '\x7d' rc = some je')
    (hlt : js' < je')
    (hdec : loads (sliceIncl rc js' je') = some (.obj kvs)) :
    parse_llm_json_response loads rc = some [.obj kvs] := by
  have hobj : objFallback loads rc = some [.obj kvs] := by
    simp only [objFallback, hjs, hje, if_pos hlt, hdec]
  unfold parse_llm_json_response
  rw [if_neg hne]
  rcases hfail with h1 | h2 | ⟨js, je, hjs2, hje2, hlt2⟩
  · rw [h1]
    cases rfindIdxCh ']' rc <;> exact hobj
  · rw [h2]
    cases findIdxCh '[' rc <;> exact hobj
  · rw [hjs2, hje2]
    simp only [if_pos hlt2]
    exact hobj

/-- Witness for the amended C3: the spec's own fallback example,
`"Here is the JSON: {"task": "Fail"}"`, with the model `json.loads`. -/
theorem claim_C3_amended_fallback_witness :
    parse_llm_json_response jsonLoads (pys "Here is the JSON: \x7b\"task\": \"Fail\"\x7d") =
      some [.obj [(pys "task", .str (pys "Fail"))]] :=
  claim_C3_amended_fallback_on_search_failure jsonLoads
    (pys "Here is the JSON: \x7b\"task\": \"Fail\"\x7d")
    [(pys "task", .str (pys "Fail"))] 18 33 (by decide) (Or.inl (by decide))
    (by decide) (by decide) (by decide) (by decide)

/-! ## Claim C1: invalid status updates.  First the counterexample, then
the split/startswith machinery needed to verify the revert in general. -/

/-- Counterexample to claim C1 as stated: updating an item whose status
is `"In Progress"` with `{status: "Done", owner: "Bob"}` does revert the
status, and does apply the other field — but the appended history
entry's change text *contains the status change description* (and
`updated_at` is bumped), because the history entry is written before the
revert runs.  The claim's "does not append a change description for the
status field" is therefore false. -/
theorem claim_C1_counterexample :
    aget (update_action_item (pys "T1")
      [(pys "id", Json.str (pys "i1")), (pys "task", Json.str (pys "Update docs")),
       (pys "owner", Json.str (pys "Dave")), (pys "status", Json.str (pys "In Progress")),
       (pys "updated_at", Json.str (pys "T0")), (pys "update_history", Json.arr [])]
      [(pys "status", Json.str (pys "Done")), (pys "owner", Json.str (pys "Bob"))])
      (pys "status") = some (Json.str (pys "In Progress")) ∧
    aget (update_action_item (pys "T1")
      [(pys "id", Json.str (pys "i1")), (pys "task", Json.str (pys "Update docs")),
       (pys "owner", Json.str (pys "Dave")), (pys "status", Json.str (pys "In Progress")),
       (pys "updated_at", Json.str (pys "T0")), (pys "update_history", Json.arr [])]
      [(pys "status", Json.str (pys "Done")), (pys "owner", Json.str (pys "Bob"))])
      (pys "owner") = some (Json.str (pys "Bob")) ∧
    historyList (update_action_item (pys "T1")
      [(pys "id", Json.str (pys "i1")), (pys "task", Json.str (pys "Update docs")),
       (pys "owner", Json.str (pys "Dave")), (pys "status", Json.str (pys "In Progress")),
       (pys "updated_at", Json.str (pys "T0")), (pys "update_history", Json.arr [])]
      [(pys "status", Json.str (pys "Done")), (pys "owner", Json.str (pys "Bob"))]) =
      [mkHistoryEntry (pys "T1")
        [changedMsg (pys "status") (Json.str (pys "In Progress")) (Json.str (pys "Done")),
         changedMsg (pys "owner") (Json.str (pys "Dave")) (Json.str (pys "Bob"))]] ∧
    aget (update_action_item (pys "T1")
      [(pys "id", Json.str (pys "i1")), (pys "task", Json.str (pys "Update docs")),
       (pys "owner", Json.str (pys "Dave")), (pys "status", Json.str (pys "In Progress")),
       (pys "updated_at", Json.str (pys "T0")), (pys "update_history", Json.arr [])]
      [(pys "status", Json.str (pys "Done")), (pys "owner", Json.str (pys "Bob"))])
      (pys "updated_at") = some (Json.str (pys "T1")) := by
  decide

theorem prefix_take_mono {l1 l2 : PyStr} (h : l1 <+: l2) (n : Nat) :
    l1.take n <+: l2.take n := by
  obtain ⟨t, rfl⟩ := h
  rw [List.take_append_eq_append_take]
  exact ⟨t.take (n - l1.length), rfl⟩

theorem prefix_append_iff_of_le {sep y : PyStr} (t : PyStr) (h : sep.length ≤ y.length) :
    sep <+: y ++ t ↔ sep <+: y := by
  constructor
  · intro hp
    have h1 : sep.take sep.length <+: (y ++ t).take sep.length := prefix_take_mono hp _
    rw [List.take_length, List.take_append_eq_append_take,
      Nat.sub_eq_zero_of_le h, List.take_zero, List.append_nil] at h1
    exact h1.trans (List.take_prefix _ _)
  · intro hp
    exact hp.trans (List.prefix_append y t)

theorem prefix_get? {p l : PyStr} (h : p <+: l) (j : Nat) (hj : j < p.length) :
    l[j]? = p[j]? := by
  obtain ⟨t, rfl⟩ := h
  rw [List.getElem?_append, if_pos hj]

theorem chop_cons_pos (sep : PyStr) (c : Char) (rest : PyStr)
    (h : sep.isPrefixOf (c :: rest) = true) :
    chopAtSep sep (c :: rest) = some ([], (c :: rest).drop sep.length) := by
  simp only [chopAtSep]
  rw [if_pos h]

theorem chop_cons_neg (sep : PyStr) (c : Char) (rest : PyStr)
    (h : ¬ sep.isPrefixOf (c :: rest) = true) :
    chopAtSep sep (c :: rest) =
      (match chopAtSep sep rest with
       | some q => some (c :: q.1, q.2)
       | none => none) := by
  simp only [chopAtSep]
  rw [if_neg h]

theorem chop_decomp (sep : PyStr) :
    ∀ (s : PyStr) (p : PyStr × PyStr), chopAtSep sep s = some p → s = p.1 ++ sep ++ p.2 := by
  intro s
  induction s with
  | nil => intro p h; cases h
  | cons c rest ih =>
    intro p h
    by_cases hpre : sep.isPrefixOf (c :: rest) = true
    · rw [chop_cons_pos sep c rest hpre] at h
      obtain ⟨t, ht⟩ := List.isPrefixOf_iff_prefix.mp hpre
      cases h
      rw [List.nil_append, ← ht, List.drop_left]
    · rw [chop_cons_neg sep c rest hpre] at h
      cases hq : chopAtSep sep rest with
      | none => rw [hq] at h; cases h
      | some q =>
        rw [hq] at h
        cases h
        rw [ih q hq]
        rfl

theorem chop_no_early (sep : PyStr) :
    ∀ (s : PyStr) (p : PyStr × PyStr), chopAtSep sep s = some p →
      ∀ i < p.1.length, ¬ sep <+: s.drop i := by
  intro s
  induction s with
  | nil => intro p h; cases h
  | cons c rest ih =>
    intro p h i hi
    by_cases hpre : sep.isPrefixOf (c :: rest) = true
    · rw [chop_cons_pos sep c rest hpre] at h
      cases h
      simp at hi
    · rw [chop_cons_neg sep c rest hpre] at h
      cases hq : chopAtSep sep rest with
      | none => rw [hq] at h; cases h
      | some q =>
        rw [hq] at h
        cases h
        cases i with
        | zero =>
          intro habs
          exact hpre (List.isPrefixOf_iff_prefix.mpr habs)
        | succ i' =>
          simp only [List.length_cons, Nat.succ_lt_succ_iff] at hi
          exact ih q hq i' hi

theorem chop_sep_at (c0 : Char) (sep' : PyStr) :
    ∀ (A rest : PyStr),
      (∀ p < A.length, ¬ (c0 :: sep') <+: ((A ++ (c0 :: sep')).drop p)) →
      chopAtSep (c0 :: sep') (A ++ (c0 :: sep') ++ rest) = some (A, rest) := by
  intro A
  induction A with
  | nil =>
    intro rest _
    rw [List.nil_append]
    have hpre : (c0 :: sep').isPrefixOf ((c0 :: sep') ++ rest) = true :=
      List.isPrefixOf_iff_prefix.mpr (List.prefix_append (c0 :: sep') rest)
    rw [show (c0 :: sep') ++ rest = c0 :: (sep' ++ rest) from rfl] at hpre ⊢
    rw [chop_cons_pos _ _ _ hpre]
    rw [show (c0 :: (sep' ++ rest)).drop (c0 :: sep').length = rest from by
      have := List.drop_left (c0 :: sep') rest
      rwa [show (c0 :: sep') ++ rest = c0 :: (sep' ++ rest) from rfl] at this]
  | cons a A' ih =>
    intro rest hA
    have hstep : (a :: A') ++ (c0 :: sep') ++ rest = a :: (A' ++ (c0 :: sep') ++ rest) := rfl
    rw [hstep]
    have hnot : ¬ (c0 :: sep').isPrefixOf (a :: (A' ++ (c0 :: sep') ++ rest)) = true := by
      intro habs
      have hpre : (c0 :: sep') <+: ((a :: A') ++ (c0 :: sep')) ++ rest :=
        List.isPrefixOf_iff_prefix.mp habs
      have hle : (c0 :: sep').length ≤ ((a :: A') ++ (c0 :: sep')).length := by
        rw [List.length_append]
        omega
      have hpre2 := (prefix_append_iff_of_le rest hle).mp hpre
      have h0 := hA 0 (by simp)
      rw [List.drop_zero] at h0
      exact h0 hpre2
    rw [chop_cons_neg _ _ _ hnot]
    have hA' : ∀ p < A'.length, ¬ (c0 :: sep') <+: ((A' ++ (c0 :: sep')).drop p) := by
      intro p hp
      have := hA (p + 1) (by simp; omega)
      simpa using this
    rw [ih rest hA']

theorem chop_sep_at_any (sep : PyStr) (hsep : sep ≠ []) (A rest : PyStr)
    (hA : ∀ p < A.length, ¬ sep <+: ((A ++ sep).drop p)) :
    chopAtSep sep (A ++ sep ++ rest) = some (A, rest) := by
  obtain ⟨c0, sep', rfl⟩ := List.exists_cons_of_ne_nil hsep
  exact chop_sep_at c0 sep' A rest hA

theorem noEarlyHit_spec (sep a : PyStr) (h : noEarlyHit sep a = true) :
    ∀ p < a.length, ¬ sep <+: ((a ++ sep).drop p) := by
  intro p hp habs
  have h1 := List.all_eq_true.mp h p (List.mem_range.mpr hp)
  rw [Bool.not_eq_true'] at h1
  rw [← List.isPrefixOf_iff_prefix, h1] at habs
  cases habs

theorem mismatchInside_spec (sep b : PyStr) (h : mismatchInside sep b = true) :
    ∀ p < b.length, ∃ j, j < sep.length ∧ p + j < b.length ∧ b[p + j]? ≠ sep[j]? := by
  intro p hp
  have h1 := List.all_eq_true.mp h p (List.mem_range.mpr hp)
  obtain ⟨j, hj, hcond⟩ := List.any_eq_true.mp h1
  rw [Bool.and_eq_true, decide_eq_true_eq, decide_eq_true_eq] at hcond
  exact ⟨j, List.mem_range.mp hj, hcond.1, hcond.2⟩

theorem mismatch_no_prefix (sep b : PyStr) (h : mismatchInside sep b = true)
    (w : PyStr) (i : Nat) (hi : i < b.length) : ¬ sep <+: ((b ++ w).drop i) := by
  intro habs
  obtain ⟨j, hj, hib, hne⟩ := mismatchInside_spec sep b h i hi
  have h1 : ((b ++ w).drop i)[j]? = sep[j]? := prefix_get? habs j hj
  rw [List.getElem?_drop, List.getElem?_append, if_pos hib] at h1
  exact hne h1

theorem pySplitF_ne_nil (sep : PyStr) (fuel : Nat) (s : PyStr) :
    pySplitF sep fuel s ≠ [] := by
  cases fuel with
  | zero => simp [pySplitF]
  | succ n => cases h : chopAtSep sep s <;> simp [pySplitF, h]

theorem pySplitF_headD (sep : PyStr) (n : Nat) (s : PyStr) :
    (pySplitF sep (n + 1) s).headD [] =
      (match chopAtSep sep s with
       | none => s
       | some p => p.1) := by
  cases h : chopAtSep sep s <;> simp [pySplitF, h]

theorem pySplit_cons_of_chop (sep s a b : PyStr) (h : chopAtSep sep s = some (a, b)) :
    ∃ n, pySplit sep s = a :: pySplitF sep (n + 1) b := by
  have hsne : s ≠ [] := by
    intro he
    rw [he] at h
    cases h
  obtain ⟨c, cs, rfl⟩ := List.exists_cons_of_ne_nil hsne
  refine ⟨cs.length, ?_⟩
  unfold pySplit
  rw [show (c :: cs).length = cs.length + 1 from by simp]
  rw [show pySplitF sep (cs.length + 1 + 1) (c :: cs) =
      (match chopAtSep sep (c :: cs) with
       | none => [c :: cs]
       | some p => p.1 :: pySplitF sep (cs.length + 1) p.2) from rfl, h]

theorem parseOrig_engine (s0s w : PyStr)
    (hA : noEarlyHit fromDelim statusChangedMark = true)
    (hB : mismatchInside fromDelim (s0s ++ toDelim) = true)
    (hC : noEarlyHit toDelim s0s = true) :
    parseOrigStatus (statusChangedMark ++ fromDelim ++ ((s0s ++ toDelim) ++ w)) = some s0s := by
  have hchop1 : chopAtSep fromDelim
      (statusChangedMark ++ fromDelim ++ ((s0s ++ toDelim) ++ w)) =
      some (statusChangedMark, (s0s ++ toDelim) ++ w) :=
    chop_sep_at_any fromDelim (by decide) statusChangedMark ((s0s ++ toDelim) ++ w)
      (noEarlyHit_spec _ _ hA)
  obtain ⟨n, hps⟩ := pySplit_cons_of_chop fromDelim _ _ _ hchop1
  have hform : ∃ z, (match chopAtSep fromDelim ((s0s ++ toDelim) ++ w) with
      | none => (s0s ++ toDelim) ++ w
      | some p => p.1) = (s0s ++ toDelim) ++ z := by
    cases hc2 : chopAtSep fromDelim ((s0s ++ toDelim) ++ w) with
    | none => exact ⟨w, rfl⟩
    | some p =>
      have hdec2 := chop_decomp fromDelim _ p hc2
      by_cases hlt : p.1.length < (s0s ++ toDelim).length
      · exfalso
        apply mismatch_no_prefix fromDelim (s0s ++ toDelim) hB w p.1.length hlt
        rw [hdec2, List.append_assoc, List.drop_left]
        exact List.prefix_append _ _
      · push_neg at hlt
        have hpre1 : p.1 <+: (s0s ++ toDelim) ++ w := by
          rw [hdec2, List.append_assoc]
          exact List.prefix_append _ _
        have hpre2 : (s0s ++ toDelim) <+: (s0s ++ toDelim) ++ w := List.prefix_append _ _
        rcases List.prefix_or_prefix_of_prefix hpre2 hpre1 with hor | hor
        · obtain ⟨z, hz⟩ := hor
          refine ⟨z, ?_⟩
          show p.1 = (s0s ++ toDelim) ++ z
          exact hz.symm
        · have heq : p.1 = s0s ++ toDelim :=
            List.IsPrefix.eq_of_length hor (Nat.le_antisymm hor.length_le hlt)
          refine ⟨[], ?_⟩
          show p.1 = (s0s ++ toDelim) ++ []
          rw [heq, List.append_nil]
  obtain ⟨z, hz⟩ := hform
  unfold parseOrigStatus
  rw [if_pos (List.isPrefixOf_iff_prefix.mpr
    (show statusChangedMark <+:
        statusChangedMark ++ fromDelim ++ ((s0s ++ toDelim) ++ w) from
      ⟨fromDelim ++ ((s0s ++ toDelim) ++ w), rfl⟩))]
  rw [hps]
  obtain ⟨p1, tail, htail⟩ :=
    List.exists_cons_of_ne_nil (pySplitF_ne_nil fromDelim (n + 1) ((s0s ++ toDelim) ++ w))
  have hp1 : p1 = (s0s ++ toDelim) ++ z := by
    have hh := pySplitF_headD fromDelim n ((s0s ++ toDelim) ++ w)
    rw [htail] at hh
    simp only [List.headD_cons] at hh
    exact hh.symm ▸ hz
  rw [htail]
  show some ((pySplit toDelim p1).headD []) = some s0s
  have hchop3 : chopAtSep toDelim ((s0s ++ toDelim) ++ z) = some (s0s, z) :=
    chop_sep_at_any toDelim (by decide) s0s z (noEarlyHit_spec _ _ hC)
  rw [hp1]
  unfold pySplit
  rw [pySplitF_headD, hchop3]

theorem parseOrig_changedMsg_status (s0 v : Json) (hs0 : s0 ∈ validStatusJson) :
    parseOrigStatus (changedMsg (pys "status") s0 v) = some (pyStrOf s0) := by
  fin_cases hs0
  · exact parseOrig_engine (pys "Open") (pys " \t\x27" ++ pyStrOf v ++ pys "\t\x27")
      (by decide) (by decide) (by decide)
  · exact parseOrig_engine (pys "In Progress") (pys " \t\x27" ++ pyStrOf v ++ pys "\t\x27")
      (by decide) (by decide) (by decide)
  · exact parseOrig_engine (pys "Completed") (pys " \t\x27" ++ pyStrOf v ++ pys "\t\x27")
      (by decide) (by decide) (by decide)
  · exact parseOrig_engine (pys "Cancelled") (pys " \t\x27" ++ pyStrOf v ++ pys "\t\x27")
      (by decide) (by decide) (by decide)

theorem parseOrig_not_mark_none (msg : PyStr) (hnp : ¬ statusChangedMark <+: msg) :
    parseOrigStatus msg = none := by
  unfold parseOrigStatus
  rw [if_neg (fun habs => hnp (List.isPrefixOf_iff_prefix.mp habs))]

theorem parseOrig_other_none (k : PyStr)
    (hk : k = pys "task" ∨ k = pys "owner" ∨ k = pys "deadline" ∨ k = pys "source_meeting") :
    (∀ v0 v1 : Json, parseOrigStatus (changedMsg k v0 v1) = none) ∧
    (∀ v1 : Json, parseOrigStatus (addedMsg k v1) = none) := by
  rcases hk with rfl | rfl | rfl | rfl
  · refine ⟨fun v0 v1 => parseOrig_not_mark_none _ (fun hpre => ?_),
      fun v1 => parseOrig_not_mark_none _ (fun hpre => ?_)⟩
    · have h18 := prefix_take_mono hpre 18
      rw [show (changedMsg (pys "task") v0 v1).take 18 =
          (changedMsg (pys "task") Json.null Json.null).take 18 from rfl] at h18
      exact absurd h18 (by decide)
    · have h18 := prefix_take_mono hpre 18
      rw [show (addedMsg (pys "task") v1).take 18 =
          (addedMsg (pys "task") Json.null).take 18 from rfl] at h18
      exact absurd h18 (by decide)
  · refine ⟨fun v0 v1 => parseOrig_not_mark_none _ (fun hpre => ?_),
      fun v1 => parseOrig_not_mark_none _ (fun hpre => ?_)⟩
    · have h18 := prefix_take_mono hpre 18
      rw [show (changedMsg (pys "owner") v0 v1).take 18 =
          (changedMsg (pys "owner") Json.null Json.null).take 18 from rfl] at h18
      exact absurd h18 (by decide)
    · have h18 := prefix_take_mono hpre 18
      rw [show (addedMsg (pys "owner") v1).take 18 =
          (addedMsg (pys "owner") Json.null).take 18 from rfl] at h18
      exact absurd h18 (by decide)
  · refine ⟨fun v0 v1 => parseOrig_not_mark_none _ (fun hpre => ?_),
      fun v1 => parseOrig_not_mark_none _ (fun hpre => ?_)⟩
    · have h18 := prefix_take_mono hpre 18
      rw [show (changedMsg (pys "deadline") v0 v1).take 18 =
          (changedMsg (pys "deadline") Json.null Json.null).take 18 from rfl] at h18
      exact absurd h18 (by decide)
    · have h18 := prefix_take_mono hpre 18
      rw [show (addedMsg (pys "deadline") v1).take 18 =
          (addedMsg (pys "deadline") Json.null).take 18 from rfl] at h18
      exact absurd h18 (by decide)
  · refine ⟨fun v0 v1 => parseOrig_not_mark_none _ (fun hpre => ?_),
      fun v1 => parseOrig_not_mark_none _ (fun hpre => ?_)⟩
    · have h18 := prefix_take_mono hpre 18
      rw [show (changedMsg (pys "source_meeting") v0 v1).take 18 =
          (changedMsg (pys "source_meeting") Json.null Json.null).take 18 from rfl] at h18
      exact absurd h18 (by decide)
    · have h18 := prefix_take_mono hpre 18
      rw [show (addedMsg (pys "source_meeting") v1).take 18 =
          (addedMsg (pys "source_meeting") Json.null).take 18 from rfl] at h18
      exact absurd h18 (by decide)

theorem findSome?_of_all_or {α β : Type} (f : α → Option β) (a : β) :
    ∀ l : List α, (∀ x ∈ l, f x = none ∨ f x = some a) → (∃ x ∈ l, f x = some a) →
      l.findSome? f = some a := by
  intro l
  induction l with
  | nil =>
    intro _ hex
    obtain ⟨x, hx, _⟩ := hex
    simp at hx
  | cons y ys ih =>
    intro hall hex
    rw [List.findSome?_cons]
    cases hy : f y with
    | some b =>
      rcases hall y (List.mem_cons_self y ys) with h | h
      · rw [hy] at h
        cases h
      · rw [hy] at h
        exact h
    | none =>
      have hex' : ∃ x ∈ ys, f x = some a := by
        obtain ⟨x, hx, hfx⟩ := hex
        rcases List.mem_cons.mp hx with rfl | hmem
        · rw [hy] at hfx
          cases hfx
        · exact ⟨x, hmem, hfx⟩
      exact ih (fun x hx => hall x (List.mem_cons_of_mem _ hx)) hex'

theorem aget_of_mem_nodup {α β : Type} [DecidableEq α] (d : List (α × β))
    (hnd : (d.map Prod.fst).Nodup) (kv : α × β) (h : kv ∈ d) : aget d kv.1 = some kv.2 := by
  induction d with
  | nil => simp at h
  | cons hd rest ih =>
    simp only [List.map_cons, List.nodup_cons] at hnd
    rcases List.mem_cons.mp h with rfl | hmem
    · simp [aget]
    · have hne : ¬ hd.1 = kv.1 := by
        intro he
        exact hnd.1 (he ▸ List.mem_map_of_mem Prod.fst hmem)
      simp only [aget, hne, if_neg, if_false]
      exact ih hnd.2 hmem

/-- Claim C1 (amended): updating an item whose status is one of the four
valid values with a field mapping (distinct action-item field keys)
whose `status` value is invalid reverts the status to the value it held
immediately before the call, and still applies every other supplied
field; however — contrary to the claim as stated, see the
counterexample — the change description for the status field IS part of
the one history entry appended by the call (the history is written
before the revert), and `updated_at` is bumped. -/
theorem claim_C1_amended_invalid_status (now : PyStr) (item ups : Dict) (s0 v : Json)
    (hnd : (ups.map Prod.fst).Nodup)
    (hks : ∀ kv ∈ ups, kv.1 ∈ fieldKeys)
    (hs0 : aget item (pys "status") = some s0)
    (hs0v : s0 ∈ validStatusJson)
    (hv : aget ups (pys "status") = some v)
    (hvv : v ∉ validStatusJson) :
    aget (update_action_item now item ups) (pys "status") = some s0 ∧
    (∀ kv ∈ ups, kv.1 ≠ pys "status" →
      aget (update_action_item now item ups) kv.1 = some kv.2) ∧
    historyList (update_action_item now item ups) =
      historyList item ++ [mkHistoryEntry now (ups.filterMap (changeEntry item))] ∧
    changedMsg (pys "status") s0 v ∈ ups.filterMap (changeEntry item) := by
  have hsv : s0 ≠ v := fun he => hvv (he ▸ hs0v)
  have hmemv : (pys "status", v) ∈ ups := aget_mem ups _ v hv
  have hdiff : ∃ kv ∈ ups, aget item kv.1 ≠ some kv.2 :=
    ⟨(pys "status", v), hmemv, by
      rw [hs0]
      intro habs
      exact hsv (Option.some_inj.mp habs)⟩
  have hkey_not : ∀ kk : PyStr, kk ∉ fieldKeys → kk ∉ ups.map Prod.fst := by
    intro kk hkk hmem
    obtain ⟨kv, hkv, hfst⟩ := List.mem_map.mp hmem
    exact hkk (hfst ▸ hks kv hkv)
  have hh : pys "update_history" ∉ ups.map Prod.fst := hkey_not _ (by decide)
  have hlog : (applyAll item ups).2 = ups.filterMap (changeEntry item) := by
    have h0 := foldl_applyOne_log_spec ups item [] hnd
    simpa using h0
  have hmeta := update_meta now item ups hh hdiff
  have hchg : changeEntry item (pys "status", v) = some (changedMsg (pys "status") s0 v) := by
    unfold changeEntry
    rw [hs0]
    show (if s0 = v then none else some (changedMsg (pys "status") s0 v)) =
        some (changedMsg (pys "status") s0 v)
    rw [if_neg hsv]
  have hmsg_mem : changedMsg (pys "status") s0 v ∈ ups.filterMap (changeEntry item) :=
    List.mem_filterMap.mpr ⟨(pys "status", v), hmemv, hchg⟩
  have hother : ∀ kv : PyStr × Json, kv ∈ ups → kv.1 ≠ pys "status" →
      kv.1 = pys "task" ∨ kv.1 = pys "owner" ∨ kv.1 = pys "deadline" ∨
        kv.1 = pys "source_meeting" := by
    intro kv hkv hne
    have hkf := hks kv hkv
    simp only [fieldKeys, List.mem_cons, List.mem_singleton, List.not_mem_nil, or_false] at hkf
    rcases hkf with h | h | h | h | h
    · exact Or.inl h
    · exact Or.inr (Or.inl h)
    · exact Or.inr (Or.inr (Or.inl h))
    · exact absurd h hne
    · exact Or.inr (Or.inr (Or.inr h))
  have hfind : ∀ dflt : Json, findOrigStatus (applyAll item ups).2 dflt = s0 := by
    intro dflt
    unfold findOrigStatus
    have hfs : (applyAll item ups).2.reverse.findSome? parseOrigStatus =
        some (pyStrOf s0) := by
      apply findSome?_of_all_or
      · intro msg hmsg
        rw [List.mem_reverse, hlog] at hmsg
        obtain ⟨kv, hkv, hce⟩ := List.mem_filterMap.mp hmsg
        by_cases hkst : kv.1 = pys "status"
        · have hkv2 : aget ups kv.1 = some kv.2 := aget_of_mem_nodup ups hnd kv hkv
          rw [hkst] at hkv2
          have hveq : kv.2 = v := Option.some_inj.mp (hkv2.symm.trans hv)
          rw [show kv = (pys "status", v) from Prod.ext hkst hveq, hchg] at hce
          right
          rw [← Option.some_inj.mp hce]
          exact parseOrig_changedMsg_status s0 v hs0v
        · have h4 := hother kv hkv hkst
          left
          unfold changeEntry at hce
          cases hgi : aget item kv.1 with
          | some v0 =>
            rw [hgi] at hce
            change (if v0 = kv.2 then none else some (changedMsg kv.1 v0 kv.2)) =
                some msg at hce
            by_cases hv0 : v0 = kv.2
            · rw [if_pos hv0] at hce
              cases hce
            · rw [if_neg hv0] at hce
              rw [← Option.some_inj.mp hce]
              exact (parseOrig_other_none kv.1 h4).1 v0 kv.2
          | none =>
            rw [hgi] at hce
            change some (addedMsg kv.1 kv.2) = some msg at hce
            rw [← Option.some_inj.mp hce]
            exact (parseOrig_other_none kv.1 h4).2 kv.2
      · refine ⟨changedMsg (pys "status") s0 v, ?_, parseOrig_changedMsg_status s0 v hs0v⟩
        rw [List.mem_reverse, hlog]
        exact hmsg_mem
    rw [hfs]
    fin_cases hs0v <;> rfl
  have hcond : amem ups (pys "status") = true ∧
      (aget ups (pys "status")).getD Json.null ∉ validStatusJson := by
    constructor
    · simp [amem, hv]
    · rw [hv]
      exact hvv
  refine ⟨?_, ?_, by rw [← hlog]; exact hmeta.2, hmsg_mem⟩
  · simp only [update_action_item]
    rw [if_pos hcond, aget_aset_self, hfind]
  · intro kv hkv hne
    rcases hother kv hkv hne with h | h | h | h
    all_goals
      exact update_applied now item ups hnd kv hkv
        (by rw [h]; decide) (by rw [h]; decide) hne

/-- Witness: the amended C1 theorem applied at a concrete call — an item
whose status is "In Progress", updated with the invalid status "Done"
together with a genuine owner change. -/
theorem claim_C1_amended_invalid_status_witness :
    aget (update_action_item (pys "T1")
        [(pys "id", Json.str (pys "i1")),
         (pys "status", Json.str (pys "In Progress")),
         (pys "owner", Json.str (pys "Alice"))]
        [(pys "status", Json.str (pys "Done")),
         (pys "owner", Json.str (pys "Bob"))]) (pys "status") =
      some (Json.str (pys "In Progress")) ∧
    (∀ kv ∈ ([(pys "status", Json.str (pys "Done")),
              (pys "owner", Json.str (pys "Bob"))] : Dict),
      kv.1 ≠ pys "status" →
      aget (update_action_item (pys "T1")
          [(pys "id", Json.str (pys "i1")),
           (pys "status", Json.str (pys "In Progress")),
           (pys "owner", Json.str (pys "Alice"))]
          [(pys "status", Json.str (pys "Done")),
           (pys "owner", Json.str (pys "Bob"))]) kv.1 = some kv.2) ∧
    historyList (update_action_item (pys "T1")
        [(pys "id", Json.str (pys "i1")),
         (pys "status", Json.str (pys "In Progress")),
         (pys "owner", Json.str (pys "Alice"))]
        [(pys "status", Json.str (pys "Done")),
         (pys "owner", Json.str (pys "Bob"))]) =
      historyList [(pys "id", Json.str (pys "i1")),
         (pys "status", Json.str (pys "In Progress")),
         (pys "owner", Json.str (pys "Alice"))] ++
        [mkHistoryEntry (pys "T1")
          (([(pys "status", Json.str (pys "Done")),
             (pys "owner", Json.str (pys "Bob"))] : Dict).filterMap
            (changeEntry [(pys "id", Json.str (pys "i1")),
               (pys "status", Json.str (pys "In Progress")),
               (pys "owner", Json.str (pys "Alice"))]))] ∧
    changedMsg (pys "status") (Json.str (pys "In Progress")) (Json.str (pys "Done")) ∈
      ([(pys "status", Json.str (pys "Done")),
        (pys "owner", Json.str (pys "Bob"))] : Dict).filterMap
        (changeEntry [(pys "id", Json.str (pys "i1")),
           (pys "status", Json.str (pys "In Progress")),
           (pys "owner", Json.str (pys "Alice"))]) :=
  claim_C1_amended_invalid_status (pys "T1")
    [(pys "id", Json.str (pys "i1")),
     (pys "status", Json.str (pys "In Progress")),
     (pys "owner", Json.str (pys "Alice"))]
    [(pys "status", Json.str (pys "Done")),
     (pys "owner", Json.str (pys "Bob"))]
    (Json.str (pys "In Progress")) (Json.str (pys "Done"))
    (by decide) (by decide) (by decide) (by decide) (by decide) (by decide)
